import Mathlib

/-!
# A verification development for the jaqoi QOI codec

Shallow embedding of the Rust sources (`lib.rs`, `encoder.rs`, `decoder.rs`).
Bytes are natural numbers; 8-bit wrapping arithmetic is explicit `% 256`, the
decoder's 32-bit pixel-count product is explicit `% 2^32`.  Rust panics
(`assert!`, `unwrap`, the unreachable match arm) are modelled by `Option`,
with `none` standing for a panic.
-/

set_option linter.unnecessarySeqFocus false
set_option linter.unnecessarySimpa false
set_option linter.unusedVariables false

namespace Jaqoi

/-- 8-bit wrapping addition (`u8::wrapping_add`). -/
def wadd (a b : Nat) : Nat := (a + b) % 256

/-- 8-bit wrapping subtraction (`u8::wrapping_sub`). -/
def wsub (a b : Nat) : Nat := (a % 256 + 256 - b % 256) % 256

/-- `struct Pixel { r, g, b, a: u8 }` from the source. -/
structure Pixel where
  r : Nat
  g : Nat
  b : Nat
  a : Nat
deriving DecidableEq, Repr

/-- `enum Channels { RGB, RGBA }`. -/
inductive Channels where
  | rgb
  | rgba
deriving DecidableEq, Repr

/-- `enum Colorspace { SrgbLinearAlpha, AllLinearAlpha }`. -/
inductive Colorspace where
  | srgbLinearAlpha
  | allLinearAlpha
deriving DecidableEq, Repr

/-- `struct ImgMetadata` (width and height are `u32` on the Rust side). -/
structure ImgMetadata where
  width : Nat
  height : Nat
  channels : Channels
  colorspace : Colorspace
deriving DecidableEq, Repr

/-- `enum Operation` — the six QOI opcodes. -/
inductive Operation where
  | rgb
  | rgba
  | index
  | diff
  | luma
  | run
deriving DecidableEq, Repr

/-- The 64-slot running index: `[Option<Pixel>; 64]`. -/
abbrev Index := List (Option Pixel)

/-- The all-empty index (`[None; 64]`). -/
def empty_index : Index := List.replicate 64 none

/-- The initial previous pixel `(0, 0, 0, 255)`. -/
def init_pixel : Pixel := ⟨0, 0, 0, 255⟩

/-- The zero pixel `(0, 0, 0, 0)` pre-seeded by the decoder. -/
def zero_pixel : Pixel := ⟨0, 0, 0, 0⟩

/-- `encoder::calculate_index`: the computation is performed in `u32`
(hence the explicit `% 2 ^ 32`) and reduced `% 64`. -/
def calculate_index (pixel : Pixel) : Nat :=
  (pixel.r * 3 + pixel.g * 5 + pixel.b * 7 + pixel.a * 11) % 2 ^ 32 % 64

/-- `encoder::tag_byte`: `assert!(tag < 4)` and `assert!(lower_bits < 64)`,
then `(tag << 6) + lower_bits` in `u8`. -/
def tag_byte (tag lower_bits : Nat) : Option Nat :=
  if tag < 4 ∧ lower_bits < 64 then some ((tag * 64 + lower_bits) % 256) else none

/-- `encoder::create_diff`: wrapped channel diffs biased by `+2`, asserted to
fit two bits each, packed below a `01` tag. -/
def create_diff (curr prev : Pixel) : Option Nat :=
  let dr := wadd (wsub curr.r prev.r) 2
  let dg := wadd (wsub curr.g prev.g) 2
  let db := wadd (wsub curr.b prev.b) 2
  if dr < 4 ∧ dg < 4 ∧ db < 4 then
    tag_byte 1 (((dr * 4 + dg) % 256 * 4 + db) % 256)
  else none

/-- `encoder::create_diff_luma`: a `10`-tagged byte carrying `dg + 32` and a
second byte packing `(dr - dg) + 8` and `(db - dg) + 8` (all wrapping). -/
def create_diff_luma (curr prev : Pixel) : Option (List Nat) :=
  let dr := wsub curr.r prev.r
  let dg := wsub curr.g prev.g
  let db := wsub curr.b prev.b
  let dr_dg := wadd (wsub dr dg) 8
  let db_dg := wadd (wsub db dg) 8
  let dg32 := wadd dg 32
  if dg32 < 64 ∧ dr_dg < 16 ∧ db_dg < 16 then
    match tag_byte 2 dg32 with
    | some b1 => some [b1, (dr_dg * 16 % 256 + db_dg) % 256]
    | none => none
  else none

/-- `encoder::push_run`: `assert!(run_length > 0 && run_length < 63)`, then a
`11`-tagged byte with a `-1` bias. -/
def push_run (run_length : Nat) : Option Nat :=
  if 0 < run_length ∧ run_length < 63 then tag_byte 3 (run_length - 1) else none

/-- `encoder::find_operation`: the opcode selection policy, in source order. -/
def find_operation (prev_pixel curr_pixel : Pixel) (index : Index) : Operation :=
  if prev_pixel.a ≠ curr_pixel.a then Operation.rgba
  else if prev_pixel = curr_pixel then Operation.run
  else if index.getD (calculate_index curr_pixel) none = some curr_pixel then Operation.index
  else
    let dr_2 := wadd (wsub curr_pixel.r prev_pixel.r) 2
    let dg_2 := wadd (wsub curr_pixel.g prev_pixel.g) 2
    let db_2 := wadd (wsub curr_pixel.b prev_pixel.b) 2
    if dr_2 < 4 ∧ dg_2 < 4 ∧ db_2 < 4 then Operation.diff
    else
      let dr_dg_8 := wadd (wsub (wsub curr_pixel.r prev_pixel.r) (wsub curr_pixel.g prev_pixel.g)) 8
      let db_dg_8 := wadd (wsub (wsub curr_pixel.b prev_pixel.b) (wsub curr_pixel.g prev_pixel.g)) 8
      let dg_32 := wadd (wsub curr_pixel.g prev_pixel.g) 32
      if dg_32 < 64 ∧ dr_dg_8 < 16 ∧ db_dg_8 < 16 then Operation.luma
      else Operation.rgb

/-- Encoder loop state: the running index, the previous pixel and the pending
run counter of `add_chunks`. -/
structure EncSt where
  index : Index
  prev : Pixel
  run : Nat
deriving DecidableEq, Repr

/-- One iteration of the `add_chunks` loop, after the opcode has been
selected: flush a pending run, emit the opcode bytes, write the index slot and
the previous-pixel register.  Returns the emitted bytes, the run lengths
passed to `push_run` (a ghost trace for the run-length invariant), and the new
state. -/
def encAfterOp (st : EncSt) (pixel : Pixel) (op : Operation) :
    Option (List Nat × List Nat × EncSt) :=
  let flushed : Option (List Nat × List Nat × Nat) :=
    if op ≠ Operation.run ∧ 0 < st.run then
      match push_run st.run with
      | some b => some ([b], [st.run], 0)
      | none => none
    else some ([], [], st.run)
  match flushed with
  | none => none
  | some (fb, fr, run0) =>
    let emitted : Option (List Nat × List Nat × Nat) :=
      match op with
      | Operation.rgb => some ([254, pixel.r, pixel.g, pixel.b], [], 0)
      | Operation.rgba => some ([255, pixel.r, pixel.g, pixel.b, pixel.a], [], 0)
      | Operation.index =>
        match tag_byte 0 (calculate_index pixel) with
        | some b => some ([b], [], 0)
        | none => none
      | Operation.diff =>
        match create_diff pixel st.prev with
        | some b => some ([b], [], 0)
        | none => none
      | Operation.luma =>
        match create_diff_luma pixel st.prev with
        | some bs => some (bs, [], 0)
        | none => none
      | Operation.run =>
        if run0 + 1 ≥ 63 then
          match push_run 62 with
          | some b => some ([b], [62], run0 + 1 - 62)
          | none => none
        else some ([], [], run0 + 1)
    match emitted with
    | none => none
    | some (eb, er, run1) =>
      some (fb ++ eb, fr ++ er,
        ⟨st.index.set (calculate_index pixel) (some pixel), pixel, run1⟩)

/-- One iteration of the `add_chunks` loop. -/
def encStep (st : EncSt) (pixel : Pixel) : Option (List Nat × List Nat × EncSt) :=
  encAfterOp st pixel (find_operation st.prev pixel st.index)

/-- The `while` loop of `add_chunks` over the pixel sequence (without the
final run flush). -/
def encSteps : List Pixel → EncSt → Option (List Nat × List Nat × EncSt)
  | [], st => some ([], [], st)
  | p :: ps, st =>
    match encStep st p with
    | none => none
    | some (bs, rs, st1) =>
      match encSteps ps st1 with
      | none => none
      | some (bs2, rs2, st2) => some (bs ++ bs2, rs ++ rs2, st2)

/-- The `add_chunks` loop followed by the final run flush. -/
def encChunks (ps : List Pixel) (st : EncSt) : Option (List Nat × List Nat × EncSt) :=
  match encSteps ps st with
  | none => none
  | some (bs, rs, st1) =>
    if 0 < st1.run then
      match push_run st1.run with
      | some b => some (bs ++ [b], rs ++ [st1.run], st1)
      | none => none
    else some (bs, rs, st1)

/-- Grouping of the raw sample bytes into pixels, as done by the iterator in
`add_chunks` (3 samples per pixel, or 4 when alpha is included; a leftover
shorter than one pixel ends the loop). -/
def groupPixels : Bool → List Nat → List Pixel
  | false, r :: g :: b :: rest => ⟨r, g, b, 255⟩ :: groupPixels false rest
  | true, r :: g :: b :: a :: rest => ⟨r, g, b, a⟩ :: groupPixels true rest
  | _, _ => []

/-- The initial encoder state of `add_chunks`. -/
def enc_init : EncSt := ⟨empty_index, init_pixel, 0⟩

/-- `encoder::add_chunks`, keeping both the emitted bytes and the ghost trace
of `push_run` lengths.  `none` models both the length `Err` and any panic. -/
def add_chunks_core (pixels : List Nat) (alpha_included : Bool) :
    Option (List Nat × List Nat) :=
  let expected := if alpha_included then 4 else 3
  if pixels.length % expected ≠ 0 then none
  else
    match encChunks (groupPixels alpha_included pixels) enc_init with
    | some (bs, rs, _) => some (bs, rs)
    | none => none

/-- `encoder::add_chunks`, projected to the emitted chunk bytes. -/
def add_chunks (pixels : List Nat) (alpha_included : Bool) : Option (List Nat) :=
  (add_chunks_core pixels alpha_included).map (fun x => x.1)

/-- `u32::to_be_bytes`. -/
def u32be (n : Nat) : List Nat :=
  [n / 2 ^ 24 % 256, n / 2 ^ 16 % 256, n / 2 ^ 8 % 256, n % 256]

/-- `encoder::add_header`: magic, big-endian width and height, channels byte,
colorspace byte. -/
def add_header (metadata : ImgMetadata) : List Nat :=
  [113, 111, 105, 102] ++ u32be metadata.width ++ u32be metadata.height
    ++ [match metadata.channels with | Channels.rgb => 3 | Channels.rgba => 4]
    ++ [match metadata.colorspace with | Colorspace.srgbLinearAlpha => 0 | Colorspace.allLinearAlpha => 1]

/-- `encoder::add_end_marker`: seven zero bytes and a one. -/
def add_end_marker : List Nat := [0, 0, 0, 0, 0, 0, 0, 1]

/-- `lib::encode`: header, chunks (the `unwrap` panic is `none`), end marker. -/
def encode (rgb_pixels : List Nat) (metadata : ImgMetadata) : Option (List Nat) :=
  let alpha_included := match metadata.channels with | Channels.rgb => false | Channels.rgba => true
  (add_chunks rgb_pixels alpha_included).map
    (fun chunks => add_header metadata ++ chunks ++ add_end_marker)

/-- `decoder::parse_operation`: the full bytes `0xFE`/`0xFF` are compared
first, then the 2-bit prefix `tag >> 6` dispatches; the final arm models the
`panic!("All 2 bit options are covered")`. -/
def parse_operation (tag : Nat) : Option Operation :=
  if tag = 254 then some Operation.rgb
  else if tag = 255 then some Operation.rgba
  else
    match tag / 64 with
    | 0 => some Operation.index
    | 1 => some Operation.diff
    | 2 => some Operation.luma
    | 3 => some Operation.run
    | _ => none

/-- The bytes the decoder pushes for one reconstructed pixel. -/
def pixelBytes (include_alpha : Bool) (p : Pixel) : List Nat :=
  if include_alpha then [p.r, p.g, p.b, p.a] else [p.r, p.g, p.b]

/-- The bytes the decoder pushes for a pixel sequence. -/
def pixBytes (include_alpha : Bool) : List Pixel → List Nat
  | [] => []
  | p :: ps => pixelBytes include_alpha p ++ pixBytes include_alpha ps

/-- Result of the decoder chunk loop: the pixel count, the output sample
bytes, and the final index and previous-pixel state. -/
structure DecOut where
  count : Nat
  out : List Nat
  index : Index
  prev : Pixel
deriving DecidableEq, Repr

/-- `decoder::write_op_rgb`: read three payload bytes; alpha inherits from
the previous pixel.  Returns the pushed output bytes, the reconstructed
pixel, the pixel count, and the remaining input; `none` is the `unwrap`
panic on a short stream. -/
def write_op_rgb (iter : List Nat) (alpha : Nat) (include_alpha : Bool) :
    Option (List Nat × Pixel × Nat × List Nat) :=
  match iter with
  | r :: g :: b :: rest =>
    some (pixelBytes include_alpha ⟨r, g, b, alpha⟩, ⟨r, g, b, alpha⟩, 1, rest)
  | _ => none

/-- `decoder::write_op_rgba`: read four payload bytes. -/
def write_op_rgba (iter : List Nat) (include_alpha : Bool) :
    Option (List Nat × Pixel × Nat × List Nat) :=
  match iter with
  | r :: g :: b :: a :: rest =>
    some (pixelBytes include_alpha ⟨r, g, b, a⟩, ⟨r, g, b, a⟩, 1, rest)
  | _ => none

/-- `decoder::write_op_index`: look up slot `tag` (the whole tag byte, whose
top two bits are zero); an empty slot is the `unwrap` panic. -/
def write_op_index (tag : Nat) (index : Index) (include_alpha : Bool) (iter : List Nat) :
    Option (List Nat × Pixel × Nat × List Nat) :=
  match index.getD tag none with
  | some p => some (pixelBytes include_alpha p, p, 1, iter)
  | none => none

/-- `decoder::write_op_diff`: the three 2-bit fields of the tag are added to
the previous channels and then 2 is subtracted, all wrapping. -/
def write_op_diff (tag : Nat) (prev_pixel : Pixel) (include_alpha : Bool) (iter : List Nat) :
    Option (List Nat × Pixel × Nat × List Nat) :=
  let dr := tag / 16 % 4
  let dg := tag / 4 % 4
  let db := tag % 4
  let p : Pixel := ⟨wsub (wadd prev_pixel.r dr) 2, wsub (wadd prev_pixel.g dg) 2,
    wsub (wadd prev_pixel.b db) 2, prev_pixel.a⟩
  some (pixelBytes include_alpha p, p, 1, iter)

/-- `decoder::write_op_luma`: 6-bit `dg` from the tag byte, 4-bit `dr-dg`
and `db-dg` from the second byte, all biased and wrapping. -/
def write_op_luma (tag : Nat) (prev_pixel : Pixel) (include_alpha : Bool) (iter : List Nat) :
    Option (List Nat × Pixel × Nat × List Nat) :=
  match iter with
  | byte2 :: rest =>
    let dg := wsub (tag % 64) 32
    let dr_dg := wsub (byte2 / 16 % 16) 8
    let db_dg := wsub (byte2 % 16) 8
    let dr := wadd dr_dg dg
    let db := wadd db_dg dg
    let p : Pixel := ⟨wadd prev_pixel.r dr, wadd prev_pixel.g dg,
      wadd prev_pixel.b db, prev_pixel.a⟩
    some (pixelBytes include_alpha p, p, 1, rest)
  | _ => none

/-- `decoder::write_op_run`: emit `(tag & 0x3F) + 1` copies of the previous
pixel. -/
def write_op_run (tag : Nat) (prev_pixel : Pixel) (include_alpha : Bool) (iter : List Nat) :
    Option (List Nat × Pixel × Nat × List Nat) :=
  let run_len := tag % 64 + 1
  some (pixBytes include_alpha (List.replicate run_len prev_pixel), prev_pixel, run_len, iter)

/-- The per-opcode dispatch of the `parse_chunks` loop body. -/
def write_op (include_alpha : Bool) (op : Operation) (tag : Nat) (rest : List Nat)
    (index : Index) (prev_pixel : Pixel) : Option (List Nat × Pixel × Nat × List Nat) :=
  match op with
  | Operation.rgb => write_op_rgb rest prev_pixel.a include_alpha
  | Operation.rgba => write_op_rgba rest include_alpha
  | Operation.index => write_op_index tag index include_alpha rest
  | Operation.diff => write_op_diff tag prev_pixel include_alpha rest
  | Operation.luma => write_op_luma tag prev_pixel include_alpha rest
  | Operation.run => write_op_run tag prev_pixel include_alpha rest

theorem write_op_rest_le {include_alpha : Bool} {op : Operation} {tag : Nat}
    {rest : List Nat} {index : Index} {prev_pixel : Pixel}
    {pu : List Nat} {p : Pixel} {c : Nat} {rest2 : List Nat}
    (h : write_op include_alpha op tag rest index prev_pixel = some (pu, p, c, rest2)) :
    rest2.length ≤ rest.length := by
  cases op <;>
    simp only [write_op, write_op_rgb, write_op_rgba, write_op_index, write_op_diff,
      write_op_luma, write_op_run] at h <;>
    (try split at h) <;>
    simp_all <;>
    omega

/-- The `while let` loop of `decoder::parse_chunks`: dispatch on the tag
byte, reconstruct the pixel through the corresponding `write_op` helper (a
`none` is a panic), then update the index slot and the previous pixel and
account for the emitted pixels. -/
def parse_chunks_go (include_alpha : Bool) : List Nat → Index → Pixel → Option DecOut
  | [], index, prev_pixel => some ⟨0, [], index, prev_pixel⟩
  | tag :: rest, index, prev_pixel =>
    match parse_operation tag with
    | none => none
    | some op =>
      match hw : write_op include_alpha op tag rest index prev_pixel with
      | none => none
      | some (pushed, current_pixel, cnt, rest2) =>
        (parse_chunks_go include_alpha rest2
            (index.set (calculate_index current_pixel) (some current_pixel)) current_pixel).map
          (fun d => ⟨cnt + d.count, pushed ++ d.out, d.index, d.prev⟩)
termination_by l => l.length
decreasing_by
  simp only [List.length_cons]
  exact Nat.lt_succ_of_le (write_op_rest_le hw)

/-- The index state `parse_chunks` starts from: empty except for the two
pre-seeded pixels. -/
def dec_init_index : Index :=
  (empty_index.set (calculate_index init_pixel) (some init_pixel)).set
    (calculate_index zero_pixel) (some zero_pixel)

/-- `decoder::parse_chunks`. -/
def parse_chunks (iter : List Nat) (include_alpha : Bool) : Option DecOut :=
  parse_chunks_go include_alpha iter dec_init_index init_pixel

/-- `decoder::parse_u32`: big-endian accumulation in `u32`. -/
def parse_u32 (b1 b2 b3 b4 : Nat) : Nat :=
  (((b1 * 256 + b2) * 256 + b3) * 256 + b4) % 2 ^ 32

/-- `decoder::parse_metadata`: at least 14 bytes, the `qoif` magic, width,
height, a channels byte in `{3, 4}` and a colorspace byte in `{0, 1}`; every
`assert`/`panic` is `none`.  Returns the metadata and the remaining bytes. -/
def parse_metadata : List Nat → Option (ImgMetadata × List Nat)
  | b0 :: b1 :: b2 :: b3 :: w1 :: w2 :: w3 :: w4 :: h1 :: h2 :: h3 :: h4 :: c :: s :: rest =>
    if b0 = 113 ∧ b1 = 111 ∧ b2 = 105 ∧ b3 = 102 then
      match (match c with | 3 => some Channels.rgb | 4 => some Channels.rgba | _ => none),
            (match s with | 0 => some Colorspace.srgbLinearAlpha | 1 => some Colorspace.allLinearAlpha | _ => none) with
      | some ch, some cs =>
        some (⟨parse_u32 w1 w2 w3 w4, parse_u32 h1 h2 h3 h4, ch, cs⟩, rest)
      | _, _ => none
    else none
  | _ => none

/-- `decoder::verify_ending`: at least 8 bytes, the last eight being
`00 00 00 00 00 00 00 01`. -/
def verify_ending (v : List Nat) : Bool :=
  decide (8 ≤ v.length)
    && (List.range 7).all (fun i => v.getD (v.length - 8 + i) 2 == 0)
    && (v.getD (v.length - 1) 2 == 1)

/-- `decoder::decode`: verify the end marker, parse the header from the bytes
before the marker, and when `width * height` (a `u32` product, hence
`% 2 ^ 32`) is positive, parse the chunks and require the parsed pixel count
to match. -/
def decode (bytes : List Nat) : Option (ImgMetadata × List Nat) :=
  if verify_ending bytes then
    match parse_metadata (bytes.take (bytes.length - 8)) with
    | some (metadata, rest) =>
      let total_pixels := metadata.width * metadata.height % 2 ^ 32
      let include_alpha := match metadata.channels with | Channels.rgb => false | Channels.rgba => true
      if 0 < total_pixels then
        match parse_chunks rest include_alpha with
        | some d => if total_pixels = d.count then some (metadata, d.out) else none
        | none => none
      else some (metadata, [])
    | none => none
  else none

end Jaqoi

namespace Jaqoi

/-! ## Basic helpers -/

/-- All four channels of a pixel are byte values. -/
def PValid (p : Pixel) : Prop := p.r < 256 ∧ p.g < 256 ∧ p.b < 256 ∧ p.a < 256

/-- All entries of a byte vector are byte values. -/
def BValid (l : List Nat) : Prop := ∀ b ∈ l, b < 256

theorem getD_set_self (l : List (Option Pixel)) (i : Nat) (x : Option Pixel)
    (h : i < l.length) : (l.set i x).getD i none = x := by
  induction l generalizing i with
  | nil => simp at h
  | cons a l ih =>
    cases i with
    | zero => simp
    | succ j =>
      simp only [List.set_cons_succ, List.getD_cons_succ]
      exact ih j (by simp at h; omega)

theorem getD_set_ne (l : List (Option Pixel)) (i j : Nat) (x : Option Pixel)
    (h : i ≠ j) : (l.set i x).getD j none = l.getD j none := by
  induction l generalizing i j with
  | nil => simp
  | cons a l ih =>
    cases i with
    | zero =>
      cases j with
      | zero => exact absurd rfl h
      | succ k => simp
    | succ i' =>
      cases j with
      | zero => simp
      | succ k =>
        simp only [List.set_cons_succ, List.getD_cons_succ]
        exact ih i' k (by omega)

theorem getD_replicate_none (n i : Nat) :
    (List.replicate n (none : Option Pixel)).getD i none = none := by
  induction n generalizing i with
  | zero => simp
  | succ m ih =>
    cases i with
    | zero => simp [List.replicate]
    | succ j => rw [List.replicate_succ, List.getD_cons_succ]; exact ih j

end Jaqoi

namespace Jaqoi

/-! ## The hash function (C6) -/

/-- C6: for every pixel with byte-valued channels, the index hash computed in
32-bit arithmetic equals `(r·3 + g·5 + b·7 + a·11) mod 64` (the 32-bit
reduction never truncates), and pixel `(5,107,203,251)` hashes to slot 60. -/
theorem c6_hash :
    (∀ p : Pixel, p.r < 256 → p.g < 256 → p.b < 256 → p.a < 256 →
      calculate_index p = (p.r * 3 + p.g * 5 + p.b * 7 + p.a * 11) % 64)
    ∧ calculate_index ⟨5, 107, 203, 251⟩ = 60 := by
  constructor
  · intro p h1 h2 h3 h4
    unfold calculate_index
    have hlt : p.r * 3 + p.g * 5 + p.b * 7 + p.a * 11 < 2 ^ 32 := by omega
    rw [Nat.mod_eq_of_lt hlt]
  · decide

/-- Witness for C6 at the concrete pixel `(5,107,203,251)`. -/
theorem c6_hash_witness :
    calculate_index ⟨5, 107, 203, 251⟩ = (5 * 3 + 107 * 5 + 203 * 7 + 251 * 11) % 64 :=
  c6_hash.1 ⟨5, 107, 203, 251⟩ (by decide) (by decide) (by decide) (by decide)

/-! ## Tag dispatch (C7, C10) -/

set_option maxRecDepth 4000 in
/-- C10: tag classification is total on bytes — for each of the 256 byte
values `parse_operation` returns an operation (the panic arm is unreachable),
and the 2-bit prefix `tag >> 6` always lies between 0 and 3. -/
theorem c10_tag_total :
    ∀ t : Nat, t < 256 → (parse_operation t).isSome = true ∧ t / 64 < 4 := by
  decide

/-- Witness for C10 at tag byte 200. -/
theorem c10_tag_total_witness :
    (parse_operation 200).isSome = true ∧ 200 / 64 < 4 :=
  c10_tag_total 200 (by decide)

set_option maxRecDepth 4000 in
/-- C7: the decoder compares the full bytes `0xFE` and `0xFF` first (they are
RGB and RGBA), and only the remaining bytes are dispatched through their 2-bit
prefix to INDEX/DIFF/LUMA/RUN. -/
theorem c7_dispatch :
    parse_operation 254 = some Operation.rgb
    ∧ parse_operation 255 = some Operation.rgba
    ∧ ∀ t : Nat, t < 256 → t ≠ 254 → t ≠ 255 →
        parse_operation t = some
          (if t / 64 = 0 then Operation.index
           else if t / 64 = 1 then Operation.diff
           else if t / 64 = 2 then Operation.luma
           else Operation.run) := by
  refine ⟨by decide, by decide, ?_⟩
  decide

/-- Witness for C7 at tag byte 200 (prefix `11`, classified RUN). -/
theorem c7_dispatch_witness : parse_operation 200 = some Operation.run := by
  have h := c7_dispatch.2.2 200 (by decide) (by decide) (by decide)
  simpa using h

/-! ## The opcode selection policy (C2) -/

/-- The opcode selection policy exactly as the specification words it
(priority RGBA, RUN, INDEX, DIFF, LUMA, RGB with the stated wrapped-range
tests).  This definition follows the spec text and is compared against the
source-derived `find_operation`. -/
def find_operation_spec (previous p : Pixel) (index : Index) : Operation :=
  if p.a ≠ previous.a then Operation.rgba
  else if p = previous then Operation.run
  else if index.getD (calculate_index p) none = some p then Operation.index
  else if wadd (wsub p.r previous.r) 2 ≤ 3 ∧ wadd (wsub p.g previous.g) 2 ≤ 3
        ∧ wadd (wsub p.b previous.b) 2 ≤ 3 then Operation.diff
  else if wadd (wsub p.g previous.g) 32 ≤ 63
        ∧ wadd (wsub (wsub p.r previous.r) (wsub p.g previous.g)) 8 ≤ 15
        ∧ wadd (wsub (wsub p.b previous.b) (wsub p.g previous.g)) 8 ≤ 15 then Operation.luma
  else Operation.rgb

/-- C2: the encoder's opcode selection follows exactly the priority order and
range tests stated by the specification. -/
theorem c2_find_operation (previous p : Pixel) (index : Index) :
    find_operation previous p index = find_operation_spec previous p index := by
  have hne : (p.a ≠ previous.a) = (previous.a ≠ p.a) := propext ⟨Ne.symm, Ne.symm⟩
  have heq : (p = previous) = (previous = p) := propext ⟨Eq.symm, Eq.symm⟩
  have h4 : ∀ x : Nat, (x ≤ 3) = (x < 4) := fun x => propext (by omega)
  have h64 : ∀ x : Nat, (x ≤ 63) = (x < 64) := fun x => propext (by omega)
  have h16 : ∀ x : Nat, (x ≤ 15) = (x < 16) := fun x => propext (by omega)
  simp only [find_operation, find_operation_spec, hne, heq, h4, h64, h16]

end Jaqoi

namespace Jaqoi

/-! ## Facts extracted from the selected opcode -/

theorem fo_rgb_alpha {prev curr : Pixel} {index : Index}
    (h : find_operation prev curr index = Operation.rgb) : prev.a = curr.a := by
  simp only [find_operation] at h
  split_ifs at h <;> simp_all

theorem fo_run_eq {prev curr : Pixel} {index : Index}
    (h : find_operation prev curr index = Operation.run) : prev = curr := by
  simp only [find_operation] at h
  split_ifs at h <;> simp_all

theorem fo_index_slot {prev curr : Pixel} {index : Index}
    (h : find_operation prev curr index = Operation.index) :
    index.getD (calculate_index curr) none = some curr ∧ prev.a = curr.a := by
  simp only [find_operation] at h
  split_ifs at h <;> simp_all

theorem fo_diff_cond {prev curr : Pixel} {index : Index}
    (h : find_operation prev curr index = Operation.diff) :
    wadd (wsub curr.r prev.r) 2 < 4 ∧ wadd (wsub curr.g prev.g) 2 < 4
      ∧ wadd (wsub curr.b prev.b) 2 < 4 ∧ prev.a = curr.a := by
  simp only [find_operation] at h
  split_ifs at h <;> simp_all

theorem fo_luma_cond {prev curr : Pixel} {index : Index}
    (h : find_operation prev curr index = Operation.luma) :
    wadd (wsub curr.g prev.g) 32 < 64
      ∧ wadd (wsub (wsub curr.r prev.r) (wsub curr.g prev.g)) 8 < 16
      ∧ wadd (wsub (wsub curr.b prev.b) (wsub curr.g prev.g)) 8 < 16
      ∧ prev.a = curr.a := by
  simp only [find_operation] at h
  split_ifs at h <;> simp_all

/-! ## Exact values of the byte-building helpers under their guards -/

theorem tag_byte_eq {tag lower : Nat} (h1 : tag < 4) (h2 : lower < 64) :
    tag_byte tag lower = some (tag * 64 + lower) := by
  unfold tag_byte
  rw [if_pos ⟨h1, h2⟩, Nat.mod_eq_of_lt (by omega)]

theorem push_run_eq {n : Nat} (h1 : 0 < n) (h2 : n < 63) :
    push_run n = some (191 + n) := by
  unfold push_run
  rw [if_pos ⟨h1, h2⟩, tag_byte_eq (by omega) (by omega)]
  congr 1
  omega

theorem create_diff_eq {curr prev : Pixel}
    (h1 : wadd (wsub curr.r prev.r) 2 < 4) (h2 : wadd (wsub curr.g prev.g) 2 < 4)
    (h3 : wadd (wsub curr.b prev.b) 2 < 4) :
    create_diff curr prev = some (64 + (wadd (wsub curr.r prev.r) 2 * 16
      + wadd (wsub curr.g prev.g) 2 * 4 + wadd (wsub curr.b prev.b) 2)) := by
  unfold create_diff
  rw [if_pos ⟨h1, h2, h3⟩, tag_byte_eq (by omega) (by omega)]
  congr 1
  omega

theorem create_diff_luma_eq {curr prev : Pixel}
    (h1 : wadd (wsub curr.g prev.g) 32 < 64)
    (h2 : wadd (wsub (wsub curr.r prev.r) (wsub curr.g prev.g)) 8 < 16)
    (h3 : wadd (wsub (wsub curr.b prev.b) (wsub curr.g prev.g)) 8 < 16) :
    create_diff_luma curr prev = some
      [128 + wadd (wsub curr.g prev.g) 32,
       wadd (wsub (wsub curr.r prev.r) (wsub curr.g prev.g)) 8 * 16
         + wadd (wsub (wsub curr.b prev.b) (wsub curr.g prev.g)) 8] := by
  unfold create_diff_luma
  rw [if_pos ⟨h1, h2, h3⟩, tag_byte_eq (by omega) h1]
  simp only [Option.some.injEq, List.cons.injEq, and_true]
  exact ⟨trivial, by omega⟩

end Jaqoi

namespace Jaqoi

/-! ## The value of one encoder step, per selected opcode -/

theorem encStep_rgb {st : EncSt} {p : Pixel}
    (hop : find_operation st.prev p st.index = Operation.rgb)
    (h62 : st.run ≤ 62) :
    encStep st p = some ((if 0 < st.run then [191 + st.run] else []) ++ [254, p.r, p.g, p.b],
      (if 0 < st.run then [st.run] else []),
      ⟨st.index.set (calculate_index p) (some p), p, 0⟩) := by
  by_cases hr : 0 < st.run
  · simp [encStep, hop, encAfterOp, push_run_eq hr (by omega), hr]
  · simp [encStep, hop, encAfterOp, hr]

theorem encStep_rgba {st : EncSt} {p : Pixel}
    (hop : find_operation st.prev p st.index = Operation.rgba)
    (h62 : st.run ≤ 62) :
    encStep st p = some ((if 0 < st.run then [191 + st.run] else []) ++ [255, p.r, p.g, p.b, p.a],
      (if 0 < st.run then [st.run] else []),
      ⟨st.index.set (calculate_index p) (some p), p, 0⟩) := by
  by_cases hr : 0 < st.run
  · simp [encStep, hop, encAfterOp, push_run_eq hr (by omega), hr]
  · simp [encStep, hop, encAfterOp, hr]

theorem encStep_index {st : EncSt} {p : Pixel}
    (hop : find_operation st.prev p st.index = Operation.index)
    (h62 : st.run ≤ 62) :
    encStep st p = some ((if 0 < st.run then [191 + st.run] else []) ++ [calculate_index p],
      (if 0 < st.run then [st.run] else []),
      ⟨st.index.set (calculate_index p) (some p), p, 0⟩) := by
  have hi : calculate_index p < 64 := Nat.mod_lt _ (by omega)
  have htb : tag_byte 0 (calculate_index p) = some (0 * 64 + calculate_index p) :=
    tag_byte_eq (by omega) hi
  by_cases hr : 0 < st.run
  · simp [encStep, hop, encAfterOp, push_run_eq hr (by omega), hr, htb]
  · simp [encStep, hop, encAfterOp, hr, htb]

theorem encStep_diff {st : EncSt} {p : Pixel}
    (hop : find_operation st.prev p st.index = Operation.diff)
    (h62 : st.run ≤ 62) :
    encStep st p = some ((if 0 < st.run then [191 + st.run] else [])
        ++ [64 + (wadd (wsub p.r st.prev.r) 2 * 16 + wadd (wsub p.g st.prev.g) 2 * 4
             + wadd (wsub p.b st.prev.b) 2)],
      (if 0 < st.run then [st.run] else []),
      ⟨st.index.set (calculate_index p) (some p), p, 0⟩) := by
  obtain ⟨h1, h2, h3, _⟩ := fo_diff_cond hop
  by_cases hr : 0 < st.run
  · simp [encStep, hop, encAfterOp, push_run_eq hr (by omega), hr, create_diff_eq h1 h2 h3]
  · simp [encStep, hop, encAfterOp, hr, create_diff_eq h1 h2 h3]

theorem encStep_luma {st : EncSt} {p : Pixel}
    (hop : find_operation st.prev p st.index = Operation.luma)
    (h62 : st.run ≤ 62) :
    encStep st p = some ((if 0 < st.run then [191 + st.run] else [])
        ++ [128 + wadd (wsub p.g st.prev.g) 32,
            wadd (wsub (wsub p.r st.prev.r) (wsub p.g st.prev.g)) 8 * 16
              + wadd (wsub (wsub p.b st.prev.b) (wsub p.g st.prev.g)) 8],
      (if 0 < st.run then [st.run] else []),
      ⟨st.index.set (calculate_index p) (some p), p, 0⟩) := by
  obtain ⟨h1, h2, h3, _⟩ := fo_luma_cond hop
  by_cases hr : 0 < st.run
  · simp [encStep, hop, encAfterOp, push_run_eq hr (by omega), hr, create_diff_luma_eq h1 h2 h3]
  · simp [encStep, hop, encAfterOp, hr, create_diff_luma_eq h1 h2 h3]

theorem encStep_run_small {st : EncSt} {p : Pixel}
    (hop : find_operation st.prev p st.index = Operation.run)
    (h : st.run + 1 < 63) :
    encStep st p = some ([], [],
      ⟨st.index.set (calculate_index p) (some p), p, st.run + 1⟩) := by
  have h' : ¬ 63 ≤ st.run + 1 := by omega
  simp [encStep, hop, encAfterOp, h']

theorem encStep_run_flush {st : EncSt} {p : Pixel}
    (hop : find_operation st.prev p st.index = Operation.run)
    (h : st.run = 62) :
    encStep st p = some ([191 + 62], [62],
      ⟨st.index.set (calculate_index p) (some p), p, 1⟩) := by
  simp [encStep, hop, encAfterOp, h, push_run_eq (by omega : (0:Nat) < 62) (by omega)]

end Jaqoi

namespace Jaqoi

/-! ## Totality of the encoder and the run-length invariant (C4, C5) -/

theorem flush_rs_bound {r : Nat} (h : r ≤ 62) :
    ∀ n ∈ (if 0 < r then [r] else []), 1 ≤ n ∧ n ≤ 62 := by
  intro n hn
  by_cases hr : 0 < r
  · simp [hr] at hn; omega
  · simp [hr] at hn

theorem encSteps_total (ps : List Pixel) : ∀ st : EncSt, st.run ≤ 62 →
    ∃ bs rs st2, encSteps ps st = some (bs, rs, st2) ∧ st2.run ≤ 62
      ∧ ∀ n ∈ rs, 1 ≤ n ∧ n ≤ 62 := by
  induction ps with
  | nil => exact fun st h => ⟨[], [], st, rfl, h, by simp⟩
  | cons p ps ih =>
    intro st h
    rcases hfo : find_operation st.prev p st.index with _ | _ | _ | _ | _ | _
    case rgb =>
      obtain ⟨bs2, rs2, st2, he, h2, hrs2⟩ :=
        ih ⟨st.index.set (calculate_index p) (some p), p, 0⟩ (by simp)
      refine ⟨((if 0 < st.run then [191 + st.run] else []) ++ [254, p.r, p.g, p.b]) ++ bs2,
        (if 0 < st.run then [st.run] else []) ++ rs2, st2, ?_, h2,
        List.forall_mem_append.mpr ⟨flush_rs_bound h, hrs2⟩⟩
      simp only [encSteps, encStep_rgb hfo h, he]
    case rgba =>
      obtain ⟨bs2, rs2, st2, he, h2, hrs2⟩ :=
        ih ⟨st.index.set (calculate_index p) (some p), p, 0⟩ (by simp)
      refine ⟨((if 0 < st.run then [191 + st.run] else []) ++ [255, p.r, p.g, p.b, p.a]) ++ bs2,
        (if 0 < st.run then [st.run] else []) ++ rs2, st2, ?_, h2,
        List.forall_mem_append.mpr ⟨flush_rs_bound h, hrs2⟩⟩
      simp only [encSteps, encStep_rgba hfo h, he]
    case index =>
      obtain ⟨bs2, rs2, st2, he, h2, hrs2⟩ :=
        ih ⟨st.index.set (calculate_index p) (some p), p, 0⟩ (by simp)
      refine ⟨((if 0 < st.run then [191 + st.run] else []) ++ [calculate_index p]) ++ bs2,
        (if 0 < st.run then [st.run] else []) ++ rs2, st2, ?_, h2,
        List.forall_mem_append.mpr ⟨flush_rs_bound h, hrs2⟩⟩
      simp only [encSteps, encStep_index hfo h, he]
    case diff =>
      obtain ⟨bs2, rs2, st2, he, h2, hrs2⟩ :=
        ih ⟨st.index.set (calculate_index p) (some p), p, 0⟩ (by simp)
      refine ⟨((if 0 < st.run then [191 + st.run] else [])
          ++ [64 + (wadd (wsub p.r st.prev.r) 2 * 16 + wadd (wsub p.g st.prev.g) 2 * 4
            + wadd (wsub p.b st.prev.b) 2)]) ++ bs2,
        (if 0 < st.run then [st.run] else []) ++ rs2, st2, ?_, h2,
        List.forall_mem_append.mpr ⟨flush_rs_bound h, hrs2⟩⟩
      simp only [encSteps, encStep_diff hfo h, he]
    case luma =>
      obtain ⟨bs2, rs2, st2, he, h2, hrs2⟩ :=
        ih ⟨st.index.set (calculate_index p) (some p), p, 0⟩ (by simp)
      refine ⟨((if 0 < st.run then [191 + st.run] else [])
          ++ [128 + wadd (wsub p.g st.prev.g) 32,
              wadd (wsub (wsub p.r st.prev.r) (wsub p.g st.prev.g)) 8 * 16
                + wadd (wsub (wsub p.b st.prev.b) (wsub p.g st.prev.g)) 8]) ++ bs2,
        (if 0 < st.run then [st.run] else []) ++ rs2, st2, ?_, h2,
        List.forall_mem_append.mpr ⟨flush_rs_bound h, hrs2⟩⟩
      simp only [encSteps, encStep_luma hfo h, he]
    case run =>
      by_cases hsm : st.run + 1 < 63
      · obtain ⟨bs2, rs2, st2, he, h2, hrs2⟩ :=
          ih ⟨st.index.set (calculate_index p) (some p), p, st.run + 1⟩ (by simp; omega)
        refine ⟨[] ++ bs2, [] ++ rs2, st2, ?_, h2, by simpa using hrs2⟩
        simp only [encSteps, encStep_run_small hfo hsm, he]
      · have h62 : st.run = 62 := by omega
        obtain ⟨bs2, rs2, st2, he, h2, hrs2⟩ :=
          ih ⟨st.index.set (calculate_index p) (some p), p, 1⟩ (by simp)
        refine ⟨[191 + 62] ++ bs2, [62] ++ rs2, st2, ?_, h2, ?_⟩
        · simp only [encSteps, encStep_run_flush hfo h62, he]
        · exact List.forall_mem_append.mpr ⟨by intro n hn; simp at hn; omega, hrs2⟩

theorem encChunks_total (ps : List Pixel) (st : EncSt) (h : st.run ≤ 62) :
    ∃ bs rs st2, encChunks ps st = some (bs, rs, st2) ∧ ∀ n ∈ rs, 1 ≤ n ∧ n ≤ 62 := by
  obtain ⟨bs, rs, st2, he, h2, hrs⟩ := encSteps_total ps st h
  by_cases hr : 0 < st2.run
  · refine ⟨bs ++ [191 + st2.run], rs ++ [st2.run], st2, ?_, ?_⟩
    · simp only [encChunks, he]
      rw [if_pos hr, push_run_eq hr (by omega)]
    · exact List.forall_mem_append.mpr ⟨hrs, by intro n hn; simp at hn; omega⟩
  · refine ⟨bs, rs, st2, ?_, hrs⟩
    simp only [encChunks, he]
    rw [if_neg hr]

/-- C4: encoding fails (with the length error) precisely when the sample
count is not a multiple of the channel count — 3 for RGB, 4 for RGBA; no
other input makes the encoder fail, and every byte value is accepted (the
equivalence holds for arbitrary input values). -/
theorem c4_length_error (pixels : List Nat) (metadata : ImgMetadata) :
    encode pixels metadata = none ↔
      pixels.length %
        (match metadata.channels with | Channels.rgb => 3 | Channels.rgba => 4) ≠ 0 := by
  rcases hc : metadata.channels with _ | _
  case rgb =>
    by_cases hl : pixels.length % 3 = 0
    · obtain ⟨bs, rs, st2, he, _⟩ :=
        encChunks_total (groupPixels false pixels) enc_init (by simp [enc_init])
      simp [encode, add_chunks, add_chunks_core, hc, hl, he]
    · simp [encode, add_chunks, add_chunks_core, hc, hl]
  case rgba =>
    by_cases hl : pixels.length % 4 = 0
    · obtain ⟨bs, rs, st2, he, _⟩ :=
        encChunks_total (groupPixels true pixels) enc_init (by simp [enc_init])
      simp [encode, add_chunks, add_chunks_core, hc, hl, he]
    · simp [encode, add_chunks, add_chunks_core, hc, hl]

/-- Witness for C4: two samples are not a whole RGB pixel, so encoding fails;
three samples encode successfully. -/
theorem c4_length_error_witness :
    encode [0, 0] ⟨1, 1, Channels.rgb, Colorspace.srgbLinearAlpha⟩ = none
    ∧ encode [0, 0, 0] ⟨1, 1, Channels.rgb, Colorspace.srgbLinearAlpha⟩ ≠ none := by
  constructor
  · exact (c4_length_error [0, 0] ⟨1, 1, Channels.rgb, Colorspace.srgbLinearAlpha⟩).mpr
      (by decide)
  · intro hnone
    have h := (c4_length_error [0, 0, 0] ⟨1, 1, Channels.rgb, Colorspace.srgbLinearAlpha⟩).mp
      hnone
    exact h (by decide)

set_option maxRecDepth 100000 in
/-- C5: every run length the encoder ever hands to `push_run` lies in
`[1, 62]` (so no RUN opcode encodes length 63 or 64), and encoding 63
identical `[0,0,0]` RGB pixels yields exactly the body `FD C0`. -/
theorem c5_run_lengths :
    (∀ (pixels : List Nat) (alpha : Bool),
        pixels.length % (if alpha then 4 else 3) = 0 →
        ∃ out runs, add_chunks_core pixels alpha = some (out, runs)
          ∧ ∀ n ∈ runs, 1 ≤ n ∧ n ≤ 62)
    ∧ add_chunks (List.replicate 189 0) false = some [253, 192] := by
  constructor
  · intro pixels alpha hlen
    obtain ⟨bs, rs, st2, he, hrs⟩ :=
      encChunks_total (groupPixels alpha pixels) enc_init (by simp [enc_init])
    refine ⟨bs, rs, ?_, hrs⟩
    simp only [add_chunks_core, hlen, if_neg, he]
    simp [hlen]
  · decide

/-- Witness for C5 at three RGB samples. -/
theorem c5_run_lengths_witness :
    ∃ out runs, add_chunks_core [0, 0, 0] false = some (out, runs)
      ∧ ∀ n ∈ runs, 1 ≤ n ∧ n ≤ 62 :=
  c5_run_lengths.1 [0, 0, 0] false (by decide)

end Jaqoi

namespace Jaqoi

/-! ## Tag classification on byte ranges -/

theorem parse_operation_index_byte {t : Nat} (h : t < 64) :
    parse_operation t = some Operation.index := by
  unfold parse_operation
  rw [if_neg (by omega), if_neg (by omega), (by omega : t / 64 = 0)]

theorem parse_operation_diff_byte {t : Nat} (h1 : 64 ≤ t) (h2 : t < 128) :
    parse_operation t = some Operation.diff := by
  unfold parse_operation
  rw [if_neg (by omega), if_neg (by omega), (by omega : t / 64 = 1)]

theorem parse_operation_luma_byte {t : Nat} (h1 : 128 ≤ t) (h2 : t < 192) :
    parse_operation t = some Operation.luma := by
  unfold parse_operation
  rw [if_neg (by omega), if_neg (by omega), (by omega : t / 64 = 2)]

theorem parse_operation_run_byte {t : Nat} (h1 : 192 ≤ t) (h2 : t ≤ 253) :
    parse_operation t = some Operation.run := by
  unfold parse_operation
  rw [if_neg (by omega), if_neg (by omega), (by omega : t / 64 = 3)]

/-! ## One decoder step per opcode shape -/

theorem parse_go_rgb (alpha : Bool) (r g b : Nat) (t : List Nat) (idx : Index) (prev : Pixel) :
    parse_chunks_go alpha (254 :: r :: g :: b :: t) idx prev =
      (parse_chunks_go alpha t
          (idx.set (calculate_index ⟨r, g, b, prev.a⟩) (some ⟨r, g, b, prev.a⟩))
          ⟨r, g, b, prev.a⟩).map
        (fun d => ⟨1 + d.count, pixelBytes alpha ⟨r, g, b, prev.a⟩ ++ d.out,
          d.index, d.prev⟩) := by
  simp [parse_chunks_go, parse_operation, write_op, write_op_rgb]

theorem parse_go_rgba (alpha : Bool) (r g b a : Nat) (t : List Nat) (idx : Index) (prev : Pixel) :
    parse_chunks_go alpha (255 :: r :: g :: b :: a :: t) idx prev =
      (parse_chunks_go alpha t
          (idx.set (calculate_index ⟨r, g, b, a⟩) (some ⟨r, g, b, a⟩)) ⟨r, g, b, a⟩).map
        (fun d => ⟨1 + d.count, pixelBytes alpha ⟨r, g, b, a⟩ ++ d.out,
          d.index, d.prev⟩) := by
  simp [parse_chunks_go, parse_operation, write_op, write_op_rgba]

theorem parse_go_index (alpha : Bool) {i : Nat} (t : List Nat) (idx : Index) (prev p : Pixel)
    (h64 : i < 64) (hslot : idx.getD i none = some p) :
    parse_chunks_go alpha (i :: t) idx prev =
      (parse_chunks_go alpha t (idx.set (calculate_index p) (some p)) p).map
        (fun d => ⟨1 + d.count, pixelBytes alpha p ++ d.out, d.index, d.prev⟩) := by
  simp only [parse_chunks_go, parse_operation_index_byte h64, write_op, write_op_index]
  rw [hslot]

theorem parse_go_diff (alpha : Bool) {d2r d2g d2b : Nat} (t : List Nat) (idx : Index)
    (prev : Pixel) (h1 : d2r < 4) (h2 : d2g < 4) (h3 : d2b < 4) :
    parse_chunks_go alpha ((64 + (d2r * 16 + d2g * 4 + d2b)) :: t) idx prev =
      (parse_chunks_go alpha t
          (idx.set (calculate_index ⟨wsub (wadd prev.r d2r) 2, wsub (wadd prev.g d2g) 2,
              wsub (wadd prev.b d2b) 2, prev.a⟩)
            (some ⟨wsub (wadd prev.r d2r) 2, wsub (wadd prev.g d2g) 2,
              wsub (wadd prev.b d2b) 2, prev.a⟩))
          ⟨wsub (wadd prev.r d2r) 2, wsub (wadd prev.g d2g) 2,
            wsub (wadd prev.b d2b) 2, prev.a⟩).map
        (fun d => ⟨1 + d.count,
          pixelBytes alpha ⟨wsub (wadd prev.r d2r) 2, wsub (wadd prev.g d2g) 2,
            wsub (wadd prev.b d2b) 2, prev.a⟩ ++ d.out, d.index, d.prev⟩) := by
  have e1 : (64 + (d2r * 16 + d2g * 4 + d2b)) / 16 % 4 = d2r := by omega
  have e2 : (64 + (d2r * 16 + d2g * 4 + d2b)) / 4 % 4 = d2g := by omega
  have e3 : (64 + (d2r * 16 + d2g * 4 + d2b)) % 4 = d2b := by omega
  simp [parse_chunks_go,
    parse_operation_diff_byte (by omega : 64 ≤ 64 + (d2r * 16 + d2g * 4 + d2b)) (by omega),
    write_op, write_op_diff, e1, e2, e3]

theorem parse_go_luma (alpha : Bool) {dgf drf dbf : Nat} (t : List Nat) (idx : Index)
    (prev : Pixel) (h1 : dgf < 64) (h2 : drf < 16) (h3 : dbf < 16) :
    parse_chunks_go alpha ((128 + dgf) :: (drf * 16 + dbf) :: t) idx prev =
      (parse_chunks_go alpha t
          (idx.set (calculate_index ⟨wadd prev.r (wadd (wsub drf 8) (wsub dgf 32)),
              wadd prev.g (wsub dgf 32),
              wadd prev.b (wadd (wsub dbf 8) (wsub dgf 32)), prev.a⟩)
            (some ⟨wadd prev.r (wadd (wsub drf 8) (wsub dgf 32)),
              wadd prev.g (wsub dgf 32),
              wadd prev.b (wadd (wsub dbf 8) (wsub dgf 32)), prev.a⟩))
          ⟨wadd prev.r (wadd (wsub drf 8) (wsub dgf 32)),
            wadd prev.g (wsub dgf 32),
            wadd prev.b (wadd (wsub dbf 8) (wsub dgf 32)), prev.a⟩).map
        (fun d => ⟨1 + d.count,
          pixelBytes alpha ⟨wadd prev.r (wadd (wsub drf 8) (wsub dgf 32)),
            wadd prev.g (wsub dgf 32),
            wadd prev.b (wadd (wsub dbf 8) (wsub dgf 32)), prev.a⟩ ++ d.out,
          d.index, d.prev⟩) := by
  have e1 : (128 + dgf) % 64 = dgf := by omega
  have e2 : (drf * 16 + dbf) / 16 % 16 = drf := by omega
  have e3 : (drf * 16 + dbf) % 16 = dbf := by omega
  simp [parse_chunks_go, parse_operation_luma_byte (by omega : 128 ≤ 128 + dgf) (by omega),
    write_op, write_op_luma, e1, e2, e3]

theorem parse_go_run (alpha : Bool) {n : Nat} (t : List Nat) (idx : Index) (prev : Pixel)
    (h1 : 1 ≤ n) (h2 : n ≤ 62) :
    parse_chunks_go alpha ((191 + n) :: t) idx prev =
      (parse_chunks_go alpha t (idx.set (calculate_index prev) (some prev)) prev).map
        (fun d => ⟨n + d.count,
          pixBytes alpha (List.replicate n prev) ++ d.out, d.index, d.prev⟩) := by
  have e1 : (191 + n) % 64 + 1 = n := by omega
  simp [parse_chunks_go, parse_operation_run_byte (by omega : 192 ≤ 191 + n) (by omega),
    write_op, write_op_run, e1]

end Jaqoi

namespace Jaqoi

/-! ## Infrastructure for the encoder/decoder simulation -/

/-- The decoder index once a pending run of `p` (if any) has been flushed. -/
def effSet (idx : Index) (run : Nat) (p : Pixel) : Index :=
  if run = 0 then idx else idx.set (calculate_index p) (some p)

/-- Every populated slot of `a` is populated with the same pixel in `b`. -/
def InvIdx (a b : Index) : Prop :=
  ∀ i q, a.getD i none = some q → b.getD i none = some q

theorem calculate_index_lt (p : Pixel) : calculate_index p < 64 :=
  Nat.mod_lt _ (by omega)

theorem InvIdx_set_both {a b : Index} {i : Nat} {q : Pixel}
    (hia : i < a.length) (hib : i < b.length) (h : InvIdx a b) :
    InvIdx (a.set i (some q)) (b.set i (some q)) := by
  intro j x hget
  by_cases he : i = j
  · subst he
    rw [getD_set_self a i _ hia] at hget
    rw [getD_set_self b i _ hib]
    exact hget
  · rw [getD_set_ne a i j _ he] at hget
    rw [getD_set_ne b i j _ he]
    exact h j x hget

theorem InvIdx_set_already {a b : Index} {i : Nat} {q : Pixel}
    (hia : i < a.length) (h : InvIdx a b) (hb : b.getD i none = some q) :
    InvIdx (a.set i (some q)) b := by
  intro j x hget
  by_cases he : i = j
  · subst he
    rw [getD_set_self a i _ hia] at hget
    rw [← hget]
    exact hb
  · rw [getD_set_ne a i j _ he] at hget
    exact h j x hget

theorem pixBytes_append (alpha : Bool) (l1 l2 : List Pixel) :
    pixBytes alpha (l1 ++ l2) = pixBytes alpha l1 ++ pixBytes alpha l2 := by
  induction l1 with
  | nil => simp [pixBytes]
  | cons p l ih => simp [pixBytes, ih]

theorem map_decout_id (x : Option DecOut) :
    x.map (fun d => (⟨0 + d.count, [] ++ d.out, d.index, d.prev⟩ : DecOut)) = x := by
  cases x <;> simp

/-- Decoding a pending-run flush byte (or nothing, when no run is pending). -/
theorem parse_flush (alpha : Bool) {run : Nat} (idD : Index) (prev : Pixel)
    (h62 : run ≤ 62) (tail : List Nat) :
    parse_chunks_go alpha ((if 0 < run then [191 + run] else []) ++ tail) idD prev =
      (parse_chunks_go alpha tail (effSet idD run prev) prev).map
        (fun d => ⟨run + d.count,
          pixBytes alpha (List.replicate run prev) ++ d.out, d.index, d.prev⟩) := by
  by_cases hr : 0 < run
  · rw [if_pos hr]
    have := parse_go_run alpha tail idD prev hr h62
    simp only [List.cons_append, List.nil_append] at this ⊢
    rw [this, effSet, if_neg (by omega)]
  · rw [if_neg hr]
    have hrz : run = 0 := by omega
    subst hrz
    rw [effSet, if_pos rfl]
    simp only [List.nil_append, List.replicate_zero]
    have := map_decout_id (parse_chunks_go alpha tail idD prev)
    simp only [pixBytes] at this ⊢
    exact this.symm

end Jaqoi

namespace Jaqoi

theorem Pixel.eta (p : Pixel) : (⟨p.r, p.g, p.b, p.a⟩ : Pixel) = p := rfl

theorem take_split (run m : Nat) (prev p : Pixel) (ps' : List Pixel) :
    (List.replicate run prev ++ p :: ps').take (run + 1 + m)
      = List.replicate run prev ++ p :: ps'.take m := by
  have h1 : List.replicate run prev ++ p :: ps'
      = (List.replicate run prev ++ [p]) ++ ps' := by simp
  have h2 : run + 1 + m = (List.replicate run prev ++ [p]).length + m := by simp
  rw [h1, h2, List.take_append]
  simp

theorem drop_split (run m : Nat) (prev p : Pixel) (ps' : List Pixel) :
    (List.replicate run prev ++ p :: ps').drop (run + 1 + m) = ps'.drop m := by
  have h1 : List.replicate run prev ++ p :: ps'
      = (List.replicate run prev ++ [p]) ++ ps' := by simp
  have h2 : run + 1 + m = (List.replicate run prev ++ [p]).length + m := by simp
  rw [h1, h2, List.drop_append]

theorem effSet_length {idx : Index} (run : Nat) (p : Pixel) :
    (effSet idx run p).length = idx.length := by
  unfold effSet
  split <;> simp

end Jaqoi

namespace Jaqoi

theorem InvIdx_extend {ie idD : Index} {run : Nat} {prev : Pixel}
    (hie : ie.length = 64) (hlenD : idD.length = 64)
    (hinv : InvIdx ie (effSet idD run prev)) :
    InvIdx (ie.set (calculate_index prev) (some prev))
      (idD.set (calculate_index prev) (some prev)) := by
  have hlt := calculate_index_lt prev
  by_cases hr : run = 0
  · rw [effSet, if_pos hr] at hinv
    exact InvIdx_set_both (by omega) (by omega) hinv
  · rw [effSet, if_neg hr] at hinv
    exact InvIdx_set_already (by omega) hinv (getD_set_self _ _ _ (by omega))

theorem replicate_append_cons (n : Nat) (a : Pixel) (l : List Pixel) :
    List.replicate n a ++ a :: l = List.replicate (n + 1) a ++ l := by
  rw [List.replicate_succ' n a]
  simp

theorem simSteps (alpha : Bool) (ps : List Pixel) : ∀ (ie : Index) (prev : Pixel) (run : Nat),
    ie.length = 64 →
    (∀ p ∈ ps, PValid p) → PValid prev →
    run ≤ 62 →
    (0 < run → ie.getD (calculate_index prev) none = some prev) →
    ∃ bs rs st, encSteps ps ⟨ie, prev, run⟩ = some (bs, rs, st)
      ∧ st.index.length = 64
      ∧ st.run ≤ 62
      ∧ PValid st.prev
      ∧ st.run ≤ run + ps.length
      ∧ (0 < st.run → st.index.getD (calculate_index st.prev) none = some st.prev)
      ∧ (List.replicate run prev ++ ps).drop (run + ps.length - st.run)
          = List.replicate st.run st.prev
      ∧ ∀ idD : Index, idD.length = 64 → InvIdx ie (effSet idD run prev) →
          ∃ idD2 : Index, idD2.length = 64 ∧ InvIdx st.index (effSet idD2 st.run st.prev) ∧
            ∀ tail : List Nat, parse_chunks_go alpha (bs ++ tail) idD prev =
              (parse_chunks_go alpha tail idD2 st.prev).map
                (fun d => ⟨run + ps.length - st.run + d.count,
                  pixBytes alpha ((List.replicate run prev ++ ps).take (run + ps.length - st.run))
                    ++ d.out, d.index, d.prev⟩) := by
  induction ps with
  | nil =>
    intro ie prev run hie hps hprev hrun hpend
    refine ⟨[], [], ⟨ie, prev, run⟩, rfl, hie, hrun, hprev, by simp, hpend, by simp, ?_⟩
    intro idD hlenD hinv
    refine ⟨idD, hlenD, hinv, ?_⟩
    intro tail
    simp only [List.nil_append, List.length_nil, Nat.add_zero, Nat.sub_self, List.take_zero,
      List.append_nil]
    exact (map_decout_id _).symm
  | cons p ps' ih =>
    intro ie prev run hie hps hprev hrun hpend
    have hvp : PValid p := hps p (by simp)
    have hps' : ∀ q ∈ ps', PValid q := fun q hq => hps q (by simp [hq])
    have hlt : calculate_index p < 64 := calculate_index_lt p
    rcases hfo : find_operation prev p ie with _ | _ | _ | _ | _ | _
    case rgb =>
      have ha : prev.a = p.a := fo_rgb_alpha hfo
      obtain ⟨bs2, rs2, st, Hsteps2, Hlen, Hrun, Hval, Hle, Hpend2, Hdrop, Hcont⟩ :=
        ih (ie.set (calculate_index p) (some p)) p 0 (by simp [hie]) hps' hvp (by omega)
          (by omega)
      have hstep : encStep ⟨ie, prev, run⟩ p = some
          ((if 0 < run then [191 + run] else []) ++ [254, p.r, p.g, p.b],
           (if 0 < run then [run] else []),
           ⟨ie.set (calculate_index p) (some p), p, 0⟩) := encStep_rgb hfo hrun
      refine ⟨((if 0 < run then [191 + run] else []) ++ [254, p.r, p.g, p.b]) ++ bs2,
        (if 0 < run then [run] else []) ++ rs2, st,
        by simp only [encSteps, hstep, Hsteps2], Hlen, Hrun, Hval,
        by simp at Hle ⊢; omega, Hpend2, ?_, ?_⟩
      · have harith : run + (p :: ps').length - st.run
            = run + 1 + (ps'.length - st.run) := by simp at Hle ⊢; omega
        rw [harith, drop_split]
        simpa using Hdrop
      · intro idD hlenD hinv
        obtain ⟨idD2, Hlen2, Hinv2, Hparse⟩ :=
          Hcont ((effSet idD run prev).set (calculate_index p) (some p))
            (by rw [List.length_set, effSet_length, hlenD])
            (by
              rw [effSet, if_pos rfl]
              exact InvIdx_set_both (by omega) (by rw [effSet_length, hlenD]; omega) hinv)
        refine ⟨idD2, Hlen2, Hinv2, ?_⟩
        intro tail
        have hassoc : ((if 0 < run then [191 + run] else []) ++ [254, p.r, p.g, p.b]) ++ bs2 ++ tail
            = (if 0 < run then [191 + run] else []) ++ ([254, p.r, p.g, p.b] ++ (bs2 ++ tail)) := by
          simp [List.append_assoc]
        rw [hassoc, parse_flush alpha idD prev hrun]
        have hop := parse_go_rgb alpha p.r p.g p.b (bs2 ++ tail) (effSet idD run prev) prev
        rw [ha, Pixel.eta] at hop
        simp only [List.cons_append, List.nil_append] at hop ⊢
        rw [hop, Hparse tail]
        cases hd : parse_chunks_go alpha tail idD2 st.prev with
        | none => simp
        | some d =>
          have harith : run + (p :: ps').length - st.run
              = run + 1 + (ps'.length - st.run) := by simp at Hle ⊢; omega
          rw [harith]
          simp only [Option.map_map, Option.map_some', Function.comp_apply,
            Option.some.injEq, DecOut.mk.injEq, List.replicate_zero, List.nil_append,
            Nat.zero_add, take_split, pixBytes_append, pixBytes, List.append_assoc,
            and_true, true_and]
          omega
    case rgba =>
      obtain ⟨bs2, rs2, st, Hsteps2, Hlen, Hrun, Hval, Hle, Hpend2, Hdrop, Hcont⟩ :=
        ih (ie.set (calculate_index p) (some p)) p 0 (by simp [hie]) hps' hvp (by omega)
          (by omega)
      have hstep : encStep ⟨ie, prev, run⟩ p = some
          ((if 0 < run then [191 + run] else []) ++ [255, p.r, p.g, p.b, p.a],
           (if 0 < run then [run] else []),
           ⟨ie.set (calculate_index p) (some p), p, 0⟩) := encStep_rgba hfo hrun
      refine ⟨((if 0 < run then [191 + run] else []) ++ [255, p.r, p.g, p.b, p.a]) ++ bs2,
        (if 0 < run then [run] else []) ++ rs2, st,
        by simp only [encSteps, hstep, Hsteps2], Hlen, Hrun, Hval,
        by simp at Hle ⊢; omega, Hpend2, ?_, ?_⟩
      · have harith : run + (p :: ps').length - st.run
            = run + 1 + (ps'.length - st.run) := by simp at Hle ⊢; omega
        rw [harith, drop_split]
        simpa using Hdrop
      · intro idD hlenD hinv
        obtain ⟨idD2, Hlen2, Hinv2, Hparse⟩ :=
          Hcont ((effSet idD run prev).set (calculate_index p) (some p))
            (by rw [List.length_set, effSet_length, hlenD])
            (by
              rw [effSet, if_pos rfl]
              exact InvIdx_set_both (by omega) (by rw [effSet_length, hlenD]; omega) hinv)
        refine ⟨idD2, Hlen2, Hinv2, ?_⟩
        intro tail
        have hassoc : ((if 0 < run then [191 + run] else []) ++ [255, p.r, p.g, p.b, p.a]) ++ bs2 ++ tail
            = (if 0 < run then [191 + run] else []) ++ ([255, p.r, p.g, p.b, p.a] ++ (bs2 ++ tail)) := by
          simp [List.append_assoc]
        rw [hassoc, parse_flush alpha idD prev hrun]
        have hop := parse_go_rgba alpha p.r p.g p.b p.a (bs2 ++ tail) (effSet idD run prev) prev
        rw [Pixel.eta] at hop
        simp only [List.cons_append, List.nil_append] at hop ⊢
        rw [hop, Hparse tail]
        cases hd : parse_chunks_go alpha tail idD2 st.prev with
        | none => simp
        | some d =>
          have harith : run + (p :: ps').length - st.run
              = run + 1 + (ps'.length - st.run) := by simp at Hle ⊢; omega
          rw [harith]
          simp only [Option.map_map, Option.map_some', Function.comp_apply,
            Option.some.injEq, DecOut.mk.injEq, List.replicate_zero, List.nil_append,
            Nat.zero_add, take_split, pixBytes_append, pixBytes, List.append_assoc,
            and_true, true_and]
          omega
    case index =>
      obtain ⟨hslot_e, ha⟩ := fo_index_slot hfo
      obtain ⟨bs2, rs2, st, Hsteps2, Hlen, Hrun, Hval, Hle, Hpend2, Hdrop, Hcont⟩ :=
        ih (ie.set (calculate_index p) (some p)) p 0 (by simp [hie]) hps' hvp (by omega)
          (by omega)
      have hstep : encStep ⟨ie, prev, run⟩ p = some
          ((if 0 < run then [191 + run] else []) ++ [calculate_index p],
           (if 0 < run then [run] else []),
           ⟨ie.set (calculate_index p) (some p), p, 0⟩) := encStep_index hfo hrun
      refine ⟨((if 0 < run then [191 + run] else []) ++ [calculate_index p]) ++ bs2,
        (if 0 < run then [run] else []) ++ rs2, st,
        by simp only [encSteps, hstep, Hsteps2], Hlen, Hrun, Hval,
        by simp at Hle ⊢; omega, Hpend2, ?_, ?_⟩
      · have harith : run + (p :: ps').length - st.run
            = run + 1 + (ps'.length - st.run) := by simp at Hle ⊢; omega
        rw [harith, drop_split]
        simpa using Hdrop
      · intro idD hlenD hinv
        obtain ⟨idD2, Hlen2, Hinv2, Hparse⟩ :=
          Hcont ((effSet idD run prev).set (calculate_index p) (some p))
            (by rw [List.length_set, effSet_length, hlenD])
            (by
              rw [effSet, if_pos rfl]
              exact InvIdx_set_both (by omega) (by rw [effSet_length, hlenD]; omega) hinv)
        refine ⟨idD2, Hlen2, Hinv2, ?_⟩
        intro tail
        have hassoc : ((if 0 < run then [191 + run] else []) ++ [calculate_index p]) ++ bs2 ++ tail
            = (if 0 < run then [191 + run] else []) ++ ([calculate_index p] ++ (bs2 ++ tail)) := by
          simp [List.append_assoc]
        rw [hassoc, parse_flush alpha idD prev hrun]
        have hslotD : (effSet idD run prev).getD (calculate_index p) none = some p :=
          hinv (calculate_index p) p hslot_e
        have hop := parse_go_index alpha (bs2 ++ tail) (effSet idD run prev) prev p hlt hslotD
        simp only [List.cons_append, List.nil_append] at hop ⊢
        rw [hop, Hparse tail]
        cases hd : parse_chunks_go alpha tail idD2 st.prev with
        | none => simp
        | some d =>
          have harith : run + (p :: ps').length - st.run
              = run + 1 + (ps'.length - st.run) := by simp at Hle ⊢; omega
          rw [harith]
          simp only [Option.map_map, Option.map_some', Function.comp_apply,
            Option.some.injEq, DecOut.mk.injEq, List.replicate_zero, List.nil_append,
            Nat.zero_add, take_split, pixBytes_append, pixBytes, List.append_assoc,
            and_true, true_and]
          omega
    case diff =>
      obtain ⟨h1, h2, h3, ha⟩ := fo_diff_cond hfo
      obtain ⟨bs2, rs2, st, Hsteps2, Hlen, Hrun, Hval, Hle, Hpend2, Hdrop, Hcont⟩ :=
        ih (ie.set (calculate_index p) (some p)) p 0 (by simp [hie]) hps' hvp (by omega)
          (by omega)
      have hstep : encStep ⟨ie, prev, run⟩ p = some
          ((if 0 < run then [191 + run] else [])
            ++ [64 + (wadd (wsub p.r prev.r) 2 * 16 + wadd (wsub p.g prev.g) 2 * 4
                 + wadd (wsub p.b prev.b) 2)],
           (if 0 < run then [run] else []),
           ⟨ie.set (calculate_index p) (some p), p, 0⟩) := encStep_diff hfo hrun
      refine ⟨((if 0 < run then [191 + run] else [])
          ++ [64 + (wadd (wsub p.r prev.r) 2 * 16 + wadd (wsub p.g prev.g) 2 * 4
               + wadd (wsub p.b prev.b) 2)]) ++ bs2,
        (if 0 < run then [run] else []) ++ rs2, st,
        by simp only [encSteps, hstep, Hsteps2], Hlen, Hrun, Hval,
        by simp at Hle ⊢; omega, Hpend2, ?_, ?_⟩
      · have harith : run + (p :: ps').length - st.run
            = run + 1 + (ps'.length - st.run) := by simp at Hle ⊢; omega
        rw [harith, drop_split]
        simpa using Hdrop
      · intro idD hlenD hinv
        obtain ⟨idD2, Hlen2, Hinv2, Hparse⟩ :=
          Hcont ((effSet idD run prev).set (calculate_index p) (some p))
            (by rw [List.length_set, effSet_length, hlenD])
            (by
              rw [effSet, if_pos rfl]
              exact InvIdx_set_both (by omega) (by rw [effSet_length, hlenD]; omega) hinv)
        refine ⟨idD2, Hlen2, Hinv2, ?_⟩
        intro tail
        have hassoc : ((if 0 < run then [191 + run] else [])
              ++ [64 + (wadd (wsub p.r prev.r) 2 * 16 + wadd (wsub p.g prev.g) 2 * 4
                   + wadd (wsub p.b prev.b) 2)]) ++ bs2 ++ tail
            = (if 0 < run then [191 + run] else [])
              ++ ([64 + (wadd (wsub p.r prev.r) 2 * 16 + wadd (wsub p.g prev.g) 2 * 4
                   + wadd (wsub p.b prev.b) 2)] ++ (bs2 ++ tail)) := by
          simp [List.append_assoc]
        rw [hassoc, parse_flush alpha idD prev hrun]
        have hop := parse_go_diff alpha (bs2 ++ tail) (effSet idD run prev) prev h1 h2 h3
        have hpix : (⟨wsub (wadd prev.r (wadd (wsub p.r prev.r) 2)) 2,
            wsub (wadd prev.g (wadd (wsub p.g prev.g) 2)) 2,
            wsub (wadd prev.b (wadd (wsub p.b prev.b) 2)) 2, prev.a⟩ : Pixel) = p := by
          obtain ⟨v1, v2, v3, v4⟩ := hvp
          obtain ⟨w1, w2, w3, w4⟩ := hprev
          have e1 : wsub (wadd prev.r (wadd (wsub p.r prev.r) 2)) 2 = p.r := by
            unfold wadd wsub; omega
          have e2 : wsub (wadd prev.g (wadd (wsub p.g prev.g) 2)) 2 = p.g := by
            unfold wadd wsub; omega
          have e3 : wsub (wadd prev.b (wadd (wsub p.b prev.b) 2)) 2 = p.b := by
            unfold wadd wsub; omega
          rw [e1, e2, e3, ha]
        rw [hpix] at hop
        simp only [List.cons_append, List.nil_append] at hop ⊢
        rw [hop, Hparse tail]
        cases hd : parse_chunks_go alpha tail idD2 st.prev with
        | none => simp
        | some d =>
          have harith : run + (p :: ps').length - st.run
              = run + 1 + (ps'.length - st.run) := by simp at Hle ⊢; omega
          rw [harith]
          simp only [Option.map_map, Option.map_some', Function.comp_apply,
            Option.some.injEq, DecOut.mk.injEq, List.replicate_zero, List.nil_append,
            Nat.zero_add, take_split, pixBytes_append, pixBytes, List.append_assoc,
            and_true, true_and]
          omega
    case luma =>
      obtain ⟨h1, h2, h3, ha⟩ := fo_luma_cond hfo
      obtain ⟨bs2, rs2, st, Hsteps2, Hlen, Hrun, Hval, Hle, Hpend2, Hdrop, Hcont⟩ :=
        ih (ie.set (calculate_index p) (some p)) p 0 (by simp [hie]) hps' hvp (by omega)
          (by omega)
      have hstep : encStep ⟨ie, prev, run⟩ p = some
          ((if 0 < run then [191 + run] else [])
            ++ [128 + wadd (wsub p.g prev.g) 32,
                wadd (wsub (wsub p.r prev.r) (wsub p.g prev.g)) 8 * 16
                  + wadd (wsub (wsub p.b prev.b) (wsub p.g prev.g)) 8],
           (if 0 < run then [run] else []),
           ⟨ie.set (calculate_index p) (some p), p, 0⟩) := encStep_luma hfo hrun
      refine ⟨((if 0 < run then [191 + run] else [])
          ++ [128 + wadd (wsub p.g prev.g) 32,
              wadd (wsub (wsub p.r prev.r) (wsub p.g prev.g)) 8 * 16
                + wadd (wsub (wsub p.b prev.b) (wsub p.g prev.g)) 8]) ++ bs2,
        (if 0 < run then [run] else []) ++ rs2, st,
        by simp only [encSteps, hstep, Hsteps2], Hlen, Hrun, Hval,
        by simp at Hle ⊢; omega, Hpend2, ?_, ?_⟩
      · have harith : run + (p :: ps').length - st.run
            = run + 1 + (ps'.length - st.run) := by simp at Hle ⊢; omega
        rw [harith, drop_split]
        simpa using Hdrop
      · intro idD hlenD hinv
        obtain ⟨idD2, Hlen2, Hinv2, Hparse⟩ :=
          Hcont ((effSet idD run prev).set (calculate_index p) (some p))
            (by rw [List.length_set, effSet_length, hlenD])
            (by
              rw [effSet, if_pos rfl]
              exact InvIdx_set_both (by omega) (by rw [effSet_length, hlenD]; omega) hinv)
        refine ⟨idD2, Hlen2, Hinv2, ?_⟩
        intro tail
        have hassoc : ((if 0 < run then [191 + run] else [])
              ++ [128 + wadd (wsub p.g prev.g) 32,
                  wadd (wsub (wsub p.r prev.r) (wsub p.g prev.g)) 8 * 16
                    + wadd (wsub (wsub p.b prev.b) (wsub p.g prev.g)) 8]) ++ bs2 ++ tail
            = (if 0 < run then [191 + run] else [])
              ++ ([128 + wadd (wsub p.g prev.g) 32,
                   wadd (wsub (wsub p.r prev.r) (wsub p.g prev.g)) 8 * 16
                     + wadd (wsub (wsub p.b prev.b) (wsub p.g prev.g)) 8] ++ (bs2 ++ tail)) := by
          simp [List.append_assoc]
        rw [hassoc, parse_flush alpha idD prev hrun]
        have hop := parse_go_luma alpha (bs2 ++ tail) (effSet idD run prev) prev h1 h2 h3
        have hpix : (⟨wadd prev.r (wadd (wsub (wadd (wsub (wsub p.r prev.r) (wsub p.g prev.g)) 8) 8)
              (wsub (wadd (wsub p.g prev.g) 32) 32)),
            wadd prev.g (wsub (wadd (wsub p.g prev.g) 32) 32),
            wadd prev.b (wadd (wsub (wadd (wsub (wsub p.b prev.b) (wsub p.g prev.g)) 8) 8)
              (wsub (wadd (wsub p.g prev.g) 32) 32)), prev.a⟩ : Pixel) = p := by
          obtain ⟨v1, v2, v3, v4⟩ := hvp
          obtain ⟨w1, w2, w3, w4⟩ := hprev
          have e1 : wadd prev.r (wadd (wsub (wadd (wsub (wsub p.r prev.r) (wsub p.g prev.g)) 8) 8)
              (wsub (wadd (wsub p.g prev.g) 32) 32)) = p.r := by
            unfold wadd wsub; omega
          have e2 : wadd prev.g (wsub (wadd (wsub p.g prev.g) 32) 32) = p.g := by
            unfold wadd wsub; omega
          have e3 : wadd prev.b (wadd (wsub (wadd (wsub (wsub p.b prev.b) (wsub p.g prev.g)) 8) 8)
              (wsub (wadd (wsub p.g prev.g) 32) 32)) = p.b := by
            unfold wadd wsub; omega
          rw [e1, e2, e3, ha]
        rw [hpix] at hop
        simp only [List.cons_append, List.nil_append] at hop ⊢
        rw [hop, Hparse tail]
        cases hd : parse_chunks_go alpha tail idD2 st.prev with
        | none => simp
        | some d =>
          have harith : run + (p :: ps').length - st.run
              = run + 1 + (ps'.length - st.run) := by simp at Hle ⊢; omega
          rw [harith]
          simp only [Option.map_map, Option.map_some', Function.comp_apply,
            Option.some.injEq, DecOut.mk.injEq, List.replicate_zero, List.nil_append,
            Nat.zero_add, take_split, pixBytes_append, pixBytes, List.append_assoc,
            and_true, true_and]
          omega
    case run =>
      have hp : prev = p := fo_run_eq hfo
      subst hp
      by_cases hsm : run + 1 < 63
      · obtain ⟨bs2, rs2, st, Hsteps2, Hlen, Hrun, Hval, Hle, Hpend2, Hdrop, Hcont⟩ :=
          ih (ie.set (calculate_index prev) (some prev)) prev (run + 1) (by simp [hie]) hps'
            hprev (by omega)
            (fun _ => getD_set_self _ _ _ (by rw [hie]; exact calculate_index_lt prev))
        have hstep : encStep ⟨ie, prev, run⟩ prev = some ([], [],
            ⟨ie.set (calculate_index prev) (some prev), prev, run + 1⟩) :=
          encStep_run_small hfo hsm
        refine ⟨[] ++ bs2, [] ++ rs2, st,
          by simp only [encSteps, hstep, Hsteps2], Hlen, Hrun, Hval,
          by simp at Hle ⊢; omega, Hpend2, ?_, ?_⟩
        · have hlist : List.replicate run prev ++ prev :: ps'
              = List.replicate (run + 1) prev ++ ps' := replicate_append_cons run prev ps'
          have harith : run + (prev :: ps').length - st.run
              = run + 1 + ps'.length - st.run := by simp; omega
          rw [hlist, harith]
          exact Hdrop
        · intro idD hlenD hinv
          obtain ⟨idD2, Hlen2, Hinv2, Hparse⟩ :=
            Hcont idD hlenD
              (by
                simp only [effSet]
                rw [if_neg (by omega : ¬ run + 1 = 0)]
                exact InvIdx_extend hie hlenD hinv)
          refine ⟨idD2, Hlen2, Hinv2, ?_⟩
          intro tail
          have hp2 := Hparse tail
          have hlist : List.replicate run prev ++ prev :: ps'
              = List.replicate (run + 1) prev ++ ps' := replicate_append_cons run prev ps'
          have harith : run + (prev :: ps').length - st.run
              = run + 1 + ps'.length - st.run := by simp; omega
          simp only [List.nil_append]
          rw [hlist, harith]
          exact hp2
      · have h62 : run = 62 := by omega
        subst h62
        obtain ⟨bs2, rs2, st, Hsteps2, Hlen, Hrun, Hval, Hle, Hpend2, Hdrop, Hcont⟩ :=
          ih (ie.set (calculate_index prev) (some prev)) prev 1 (by simp [hie]) hps' hprev
            (by omega)
            (fun _ => getD_set_self _ _ _ (by rw [hie]; exact calculate_index_lt prev))
        have hstep : encStep ⟨ie, prev, 62⟩ prev = some ([191 + 62], [62],
            ⟨ie.set (calculate_index prev) (some prev), prev, 1⟩) :=
          encStep_run_flush hfo rfl
        refine ⟨[191 + 62] ++ bs2, [62] ++ rs2, st,
          by simp only [encSteps, hstep, Hsteps2], Hlen, Hrun, Hval,
          by simp at Hle ⊢; omega, Hpend2, ?_, ?_⟩
        · have hlist : List.replicate 62 prev ++ prev :: ps'
              = List.replicate 62 prev ++ (List.replicate 1 prev ++ ps') := by simp
          have harith : 62 + (prev :: ps').length - st.run
              = (List.replicate 62 prev).length + (1 + ps'.length - st.run) := by
            simp at Hle ⊢; omega
          rw [hlist, harith, List.drop_append]
          simpa using Hdrop
        · intro idD hlenD hinv
          simp only [effSet] at hinv
          rw [if_neg (by omega : ¬ (62:Nat) = 0)] at hinv
          obtain ⟨idD2, Hlen2, Hinv2, Hparse⟩ :=
            Hcont (idD.set (calculate_index prev) (some prev))
              (by rw [List.length_set, hlenD])
              (by
                simp only [effSet]
                rw [if_neg (by omega : ¬ (1:Nat) = 0), List.set_set]
                exact InvIdx_set_already (by rw [hie]; exact calculate_index_lt prev) hinv
                  (getD_set_self _ _ _ (by rw [hlenD]; exact calculate_index_lt prev)))
          refine ⟨idD2, Hlen2, Hinv2, ?_⟩
          intro tail
          have hrb := parse_go_run alpha (bs2 ++ tail) idD prev
            (by omega : 1 ≤ 62) (by omega : (62:Nat) ≤ 62)
          simp only [List.cons_append, List.nil_append] at hrb ⊢
          rw [hrb, Hparse tail]
          cases hd : parse_chunks_go alpha tail idD2 st.prev with
          | none => simp
          | some d =>
            have hlist : List.replicate 62 prev ++ prev :: ps'
                = List.replicate 62 prev ++ (List.replicate 1 prev ++ ps') := by simp
            have harith : 62 + (prev :: ps').length - st.run
                = (List.replicate 62 prev).length + (1 + ps'.length - st.run) := by
              simp at Hle ⊢; omega
            rw [hlist, harith, List.take_append]
            simp only [Option.map_map, Option.map_some', Function.comp_apply,
              Option.some.injEq, DecOut.mk.injEq, pixBytes_append, List.append_assoc,
              List.length_replicate, and_true, true_and]
            omega

end Jaqoi

namespace Jaqoi

/-! ## Framing lemmas -/

theorem take_before_marker (l : List Nat) :
    (l ++ add_end_marker).take ((l ++ add_end_marker).length - 8) = l := by
  have h1 : (l ++ add_end_marker).length - 8 = l.length := by simp [add_end_marker]
  rw [h1]
  have h2 : (l ++ add_end_marker).take (l.length + 0) = l ++ add_end_marker.take 0 :=
    List.take_append 0
  simpa using h2

theorem verify_ending_concat (t d : List Nat) (hd : d.length = 8) :
    verify_ending (t ++ d) = true ↔ d = [0, 0, 0, 0, 0, 0, 0, 1] := by
  rcases d with _ | ⟨a0, d⟩; · simp at hd
  rcases d with _ | ⟨a1, d⟩; · simp at hd
  rcases d with _ | ⟨a2, d⟩; · simp at hd
  rcases d with _ | ⟨a3, d⟩; · simp at hd
  rcases d with _ | ⟨a4, d⟩; · simp at hd
  rcases d with _ | ⟨a5, d⟩; · simp at hd
  rcases d with _ | ⟨a6, d⟩; · simp at hd
  rcases d with _ | ⟨a7, d⟩; · simp at hd
  rcases d with _ | ⟨a8, d⟩
  case cons => simp at hd
  have hlen : (t ++ [a0, a1, a2, a3, a4, a5, a6, a7]).length = t.length + 8 := by simp
  have hget : ∀ i : Nat, (t ++ [a0, a1, a2, a3, a4, a5, a6, a7]).getD (t.length + i) 2
      = [a0, a1, a2, a3, a4, a5, a6, a7].getD i 2 := by
    intro i
    rw [List.getD_append_right]
    · simp
    · omega
  unfold verify_ending
  simp only [hlen, Bool.and_eq_true, decide_eq_true_eq, List.all_eq_true, List.mem_range,
    beq_iff_eq]
  constructor
  · rintro ⟨⟨h8, hz⟩, ho⟩
    have g0 := hz 0 (by omega)
    have g1 := hz 1 (by omega)
    have g2 := hz 2 (by omega)
    have g3 := hz 3 (by omega)
    have g4 := hz 4 (by omega)
    have g5 := hz 5 (by omega)
    have g6 := hz 6 (by omega)
    have e : ∀ i : Nat, t.length + 8 - 8 + i = t.length + i := by omega
    rw [e, hget] at g0 g1 g2 g3 g4 g5 g6
    have e7 : t.length + 8 - 1 = t.length + 7 := by omega
    rw [e7, hget] at ho
    simp only [List.getD] at g0 g1 g2 g3 g4 g5 g6 ho
    simp at g0 g1 g2 g3 g4 g5 g6 ho
    simp [g0, g1, g2, g3, g4, g5, g6, ho]
  · intro hmarker
    injection hmarker with e0 hmarker
    injection hmarker with e1 hmarker
    injection hmarker with e2 hmarker
    injection hmarker with e3 hmarker
    injection hmarker with e4 hmarker
    injection hmarker with e5 hmarker
    injection hmarker with e6 hmarker
    injection hmarker with e7 hmarker
    subst e0 e1 e2 e3 e4 e5 e6 e7
    refine ⟨⟨by omega, ?_⟩, ?_⟩
    · intro i hi
      have e : t.length + 8 - 8 + i = t.length + i := by omega
      rw [e, hget]
      interval_cases i <;> simp
    · have e7 : t.length + 8 - 1 = t.length + 7 := by omega
      rw [e7, hget]
      simp

theorem verify_ending_append (l : List Nat) :
    verify_ending (l ++ add_end_marker) = true :=
  (verify_ending_concat l add_end_marker (by simp [add_end_marker])).mpr rfl

theorem parse_u32_u32be (n : Nat) (h : n < 2 ^ 32) :
    parse_u32 (n / 2 ^ 24 % 256) (n / 2 ^ 16 % 256) (n / 2 ^ 8 % 256) (n % 256) = n := by
  unfold parse_u32
  omega

theorem parse_metadata_header (metadata : ImgMetadata) (rest : List Nat)
    (hw : metadata.width < 2 ^ 32) (hh : metadata.height < 2 ^ 32) :
    parse_metadata (add_header metadata ++ rest) = some (metadata, rest) := by
  obtain ⟨w, h, ch, cs⟩ := metadata
  simp only [add_header, u32be, List.cons_append, List.nil_append]
  cases ch <;> cases cs <;>
    (simp [parse_metadata]
     exact ⟨parse_u32_u32be w hw, parse_u32_u32be h hh⟩)

/-! ## Grouping raw samples into pixels -/

theorem group_spec : ∀ (n : Nat) (alpha : Bool) (l : List Nat),
    l.length = (if alpha then 4 else 3) * n →
    (∀ b ∈ l, b < 256) →
    pixBytes alpha (groupPixels alpha l) = l
    ∧ (groupPixels alpha l).length = n
    ∧ ∀ p ∈ groupPixels alpha l, PValid p := by
  intro n
  induction n with
  | zero =>
    intro alpha l hlen hval
    have h0 : l = [] := List.eq_nil_of_length_eq_zero (by simpa using hlen)
    subst h0
    cases alpha <;> simp [groupPixels, pixBytes]
  | succ m ih =>
    intro alpha l hlen hval
    cases alpha
    case false =>
      rcases l with _ | ⟨r, l⟩
      · simp at hlen
      rcases l with _ | ⟨g, l⟩
      · simp at hlen; omega
      rcases l with _ | ⟨b, l⟩
      · simp at hlen; omega
      have hlen' : l.length = (if false then 4 else 3) * m := by
        simp at hlen ⊢; omega
      have hval' : ∀ x ∈ l, x < 256 := fun x hx => hval x (by simp [hx])
      obtain ⟨ih1, ih2, ih3⟩ := ih false l hlen' hval'
      refine ⟨?_, ?_, ?_⟩
      · simp [groupPixels, pixBytes, pixelBytes, ih1]
      · simp [groupPixels, ih2]
      · intro p hp
        simp only [groupPixels, List.mem_cons] at hp
        rcases hp with rfl | hp
        · exact ⟨hval r (by simp), hval g (by simp), hval b (by simp),
            by show (255:Nat) < 256; omega⟩
        · exact ih3 p hp
    case true =>
      rcases l with _ | ⟨r, l⟩
      · simp at hlen
      rcases l with _ | ⟨g, l⟩
      · simp at hlen; omega
      rcases l with _ | ⟨b, l⟩
      · simp at hlen; omega
      rcases l with _ | ⟨a, l⟩
      · simp at hlen; omega
      have hlen' : l.length = (if true then 4 else 3) * m := by
        simp at hlen ⊢; omega
      have hval' : ∀ x ∈ l, x < 256 := fun x hx => hval x (by simp [hx])
      obtain ⟨ih1, ih2, ih3⟩ := ih true l hlen' hval'
      refine ⟨?_, ?_, ?_⟩
      · simp [groupPixels, pixBytes, pixelBytes, ih1]
      · simp [groupPixels, ih2]
      · intro p hp
        simp only [groupPixels, List.mem_cons] at hp
        rcases hp with rfl | hp
        · exact ⟨hval r (by simp), hval g (by simp), hval b (by simp), hval a (by simp)⟩
        · exact ih3 p hp

end Jaqoi

namespace Jaqoi

/-! ## The chunk-level round trip -/

theorem parse_nil (alpha : Bool) (idx : Index) (prev : Pixel) :
    parse_chunks_go alpha [] idx prev = some ⟨0, [], idx, prev⟩ := by
  simp [parse_chunks_go]

theorem add_chunks_eq (pixels : List Nat) (alpha : Bool) (bs rs : List Nat) (st : EncSt)
    (hdiv : pixels.length % (if alpha then 4 else 3) = 0)
    (h : encChunks (groupPixels alpha pixels) enc_init = some (bs, rs, st)) :
    add_chunks pixels alpha = some bs := by
  simp only [add_chunks, add_chunks_core]
  rw [if_neg (not_not_intro hdiv), h]
  rfl

theorem chunk_roundtrip (alpha : Bool) (pixels : List Nat) (n : Nat)
    (hval : ∀ b ∈ pixels, b < 256)
    (hlen : pixels.length = (if alpha then 4 else 3) * n) :
    ∃ chunks rs st, encChunks (groupPixels alpha pixels) enc_init = some (chunks, rs, st)
      ∧ ∃ d, parse_chunks chunks alpha = some d ∧ d.count = n ∧ d.out = pixels := by
  obtain ⟨hbytes, hglen, hgval⟩ := group_spec n alpha pixels hlen hval
  obtain ⟨bs, rs, st, Hsteps, Hlen, Hrun, Hval, Hle, Hpend, Hdrop, Hcont⟩ :=
    simSteps alpha (groupPixels alpha pixels) empty_index init_pixel 0
      (by simp [empty_index])
      hgval
      (by simp [PValid, init_pixel])
      (by omega)
      (by omega)
  obtain ⟨idD2, Hlen2, Hinv2, Hparse⟩ := Hcont dec_init_index
    (by simp [dec_init_index, empty_index])
    (by
      intro i q hget
      rw [empty_index, getD_replicate_none] at hget
      cases hget)
  rw [hglen] at Hle Hdrop Hparse
  simp only [Nat.zero_add, List.replicate_zero, List.nil_append] at Hle Hdrop Hparse
  by_cases hr : 0 < st.run
  · have hchunks : encChunks (groupPixels alpha pixels) enc_init
        = some (bs ++ [191 + st.run], rs ++ [st.run], st) := by
      unfold encChunks enc_init
      simp only [Hsteps]
      rw [if_pos hr, push_run_eq hr (by omega)]
    refine ⟨bs ++ [191 + st.run], rs ++ [st.run], st, hchunks, ?_⟩
    have hp := Hparse [191 + st.run]
    have hrunp := parse_go_run alpha [] idD2 st.prev hr Hrun
    rw [parse_nil] at hrunp
    simp only [Option.map_some'] at hrunp
    rw [hrunp] at hp
    simp only [Option.map_some'] at hp
    unfold parse_chunks
    rw [hp]
    refine ⟨_, rfl, ?_, ?_⟩
    · simp
      omega
    · simp only [List.append_nil]
      have hout : pixBytes alpha ((groupPixels alpha pixels).take (n - st.run))
            ++ pixBytes alpha (List.replicate st.run st.prev)
          = pixels := by
        rw [← Hdrop, ← pixBytes_append, List.take_append_drop, hbytes]
      simpa using hout
  · have hchunks : encChunks (groupPixels alpha pixels) enc_init = some (bs, rs, st) := by
      unfold encChunks enc_init
      simp only [Hsteps]
      rw [if_neg hr]
    refine ⟨bs, rs, st, hchunks, ?_⟩
    have hp := Hparse []
    rw [parse_nil] at hp
    simp only [Option.map_some', List.append_nil] at hp
    unfold parse_chunks
    rw [hp]
    refine ⟨_, rfl, ?_, ?_⟩
    · simp
      omega
    · have hz : st.run = 0 := by omega
      simp only [hz, Nat.sub_zero]
      rw [List.take_of_length_le (by omega), hbytes]


end Jaqoi

namespace Jaqoi

/-- C1 (amended): the round-trip law for every metadata whose 32-bit pixel
count does not overflow — for all `metadata` with `width < 2^32`,
`height < 2^32` and `width·height < 2^32`, and every byte vector of length
`width·height·channels`, decoding the encoding returns exactly the metadata
and the pixels. -/
theorem c1_roundtrip (pixels : List Nat) (metadata : ImgMetadata)
    (hw : metadata.width < 2 ^ 32) (hh : metadata.height < 2 ^ 32)
    (hwh : metadata.width * metadata.height < 2 ^ 32)
    (hval : ∀ b ∈ pixels, b < 256)
    (hlen : pixels.length = metadata.width * metadata.height
      * (match metadata.channels with | Channels.rgb => 3 | Channels.rgba => 4)) :
    ∃ stream, encode pixels metadata = some stream
      ∧ decode stream = some (metadata, pixels) := by
  have key : ∀ alpha : Bool,
      (match metadata.channels with | Channels.rgb => false | Channels.rgba => true) = alpha →
      pixels.length = (if alpha then 4 else 3) * (metadata.width * metadata.height) →
      ∃ stream, encode pixels metadata = some stream
        ∧ decode stream = some (metadata, pixels) := by
    intro alpha halpha hlen'
    have hdiv : pixels.length % (if alpha then 4 else 3) = 0 := by
      rw [hlen']
      cases alpha <;> simp
    obtain ⟨chunks, crs, cst, hchunks, d, hparse, hcount, hout⟩ :=
      chunk_roundtrip alpha pixels (metadata.width * metadata.height) hval hlen'
    have hac : add_chunks pixels alpha = some chunks :=
      add_chunks_eq pixels alpha chunks crs cst hdiv hchunks
    have henc : encode pixels metadata
        = some (add_header metadata ++ chunks ++ add_end_marker) := by
      simp only [encode]
      rw [halpha, hac]
      rfl
    refine ⟨add_header metadata ++ chunks ++ add_end_marker, henc, ?_⟩
    have e1 : add_header metadata ++ chunks ++ add_end_marker
        = (add_header metadata ++ chunks) ++ add_end_marker := by
      simp [List.append_assoc]
    rw [e1]
    unfold decode
    rw [verify_ending_append, take_before_marker, parse_metadata_header metadata chunks hw hh]
    simp only [if_true]
    rw [Nat.mod_eq_of_lt hwh, halpha]
    by_cases hpos : 0 < metadata.width * metadata.height
    · rw [if_pos hpos, hparse]
      show (if metadata.width * metadata.height = d.count then some (metadata, d.out) else none)
        = some (metadata, pixels)
      rw [if_pos hcount.symm, hout]
    · rw [if_neg hpos]
      have hze : pixels = [] := by
        apply List.eq_nil_of_length_eq_zero
        rw [hlen', show metadata.width * metadata.height = 0 by omega, Nat.mul_zero]
      rw [hze]
  cases hch : metadata.channels
  case rgb => exact key false (by rw [hch]) (by rw [hlen, hch]; simp [Nat.mul_comm])
  case rgba => exact key true (by rw [hch]) (by rw [hlen, hch]; simp [Nat.mul_comm])


end Jaqoi

namespace Jaqoi

/-- Witness for C1 at a concrete 1-by-1 RGB image. -/
theorem c1_roundtrip_witness :
    ∃ stream, encode [50, 50, 50] ⟨1, 1, Channels.rgb, Colorspace.srgbLinearAlpha⟩
        = some stream
      ∧ decode stream
        = some (⟨1, 1, Channels.rgb, Colorspace.srgbLinearAlpha⟩, [50, 50, 50]) :=
  c1_roundtrip [50, 50, 50] ⟨1, 1, Channels.rgb, Colorspace.srgbLinearAlpha⟩
    (by decide) (by decide) (by decide) (by decide) (by decide)


end Jaqoi

namespace Jaqoi

/-- Counterexample to C1 as stated: for the metadata `65536 × 65536` RGB the
pixel-byte vector of length `width·height·3 = 3·2^32` encodes successfully,
but the decoder computes the pixel count in 32 bits, `65536 · 65536` wraps
to zero, and decoding returns the empty pixel vector instead of the input. -/
theorem c1_roundtrip_counterexample :
    Option.bind
        (encode (List.replicate (3 * 2 ^ 32) 0)
          ⟨2 ^ 16, 2 ^ 16, Channels.rgb, Colorspace.srgbLinearAlpha⟩)
        decode
      = some (⟨2 ^ 16, 2 ^ 16, Channels.rgb, Colorspace.srgbLinearAlpha⟩, ([] : List Nat))
    ∧ List.replicate (3 * 2 ^ 32) (0 : Nat) ≠ ([] : List Nat) := by
  constructor
  · obtain ⟨chunks, crs, cst, hchunks, _⟩ :=
      encChunks_total (groupPixels false (List.replicate (3 * 2 ^ 32) 0)) enc_init
        (by simp [enc_init])
    have hac : add_chunks (List.replicate (3 * 2 ^ 32) 0) false = some chunks :=
      add_chunks_eq (List.replicate (3 * 2 ^ 32) 0) false chunks crs cst
        (by rw [List.length_replicate]; rfl) hchunks
    have henc : encode (List.replicate (3 * 2 ^ 32) 0)
          ⟨2 ^ 16, 2 ^ 16, Channels.rgb, Colorspace.srgbLinearAlpha⟩
        = some (add_header ⟨2 ^ 16, 2 ^ 16, Channels.rgb, Colorspace.srgbLinearAlpha⟩
            ++ chunks ++ add_end_marker) := by
      simp only [encode]
      rw [hac]
      rfl
    rw [henc]
    show decode (add_header ⟨2 ^ 16, 2 ^ 16, Channels.rgb, Colorspace.srgbLinearAlpha⟩
        ++ chunks ++ add_end_marker)
      = some (⟨2 ^ 16, 2 ^ 16, Channels.rgb, Colorspace.srgbLinearAlpha⟩, ([] : List Nat))
    have e1 : add_header ⟨2 ^ 16, 2 ^ 16, Channels.rgb, Colorspace.srgbLinearAlpha⟩
          ++ chunks ++ add_end_marker
        = (add_header ⟨2 ^ 16, 2 ^ 16, Channels.rgb, Colorspace.srgbLinearAlpha⟩
          ++ chunks) ++ add_end_marker := by
      simp [List.append_assoc]
    rw [e1]
    unfold decode
    rw [verify_ending_append, take_before_marker,
      parse_metadata_header ⟨2 ^ 16, 2 ^ 16, Channels.rgb, Colorspace.srgbLinearAlpha⟩ chunks
        (by show (2:Nat) ^ 16 < 2 ^ 32; omega) (by show (2:Nat) ^ 16 < 2 ^ 32; omega)]
    simp only [if_true]
    rw [(by omega : (2:Nat) ^ 16 * 2 ^ 16 = 2 ^ 32), Nat.mod_self]
    rfl
  · intro hcontra
    have h2 := congrArg List.length hcontra
    rw [List.length_replicate, List.length_nil] at h2
    omega

end Jaqoi

namespace Jaqoi

/-- C3 (amended): the state-mirror invariant that actually holds.  For every
prefix of the pixel sequence, after flushing the pending run the encoder and
decoder hold the identical `previous_pixel`, and every slot the encoder's
index has filled holds the identical pixel in the decoder's index — but the
two 64-slot indexes are not identical, because the decoder pre-seeds the
slots of `(0,0,0,255)` and `(0,0,0,0)`. -/
theorem c3_state_mirror (alpha : Bool) (ps : List Pixel) (hval : ∀ p ∈ ps, PValid p) (k : Nat) :
    ∃ chunks rs st, encChunks (ps.take k) enc_init = some (chunks, rs, st)
      ∧ ∃ d, parse_chunks chunks alpha = some d
        ∧ d.prev = st.prev ∧ InvIdx st.index d.index := by
  have hvalk : ∀ p ∈ ps.take k, PValid p := fun p hp => hval p (List.mem_of_mem_take hp)
  obtain ⟨bs, rs, st, Hsteps, Hlen, Hrun, Hval, Hle, Hpend, Hdrop, Hcont⟩ :=
    simSteps alpha (ps.take k) empty_index init_pixel 0
      (by simp [empty_index]) hvalk (by simp [PValid, init_pixel]) (by omega) (by omega)
  obtain ⟨idD2, Hlen2, Hinv2, Hparse⟩ := Hcont dec_init_index
    (by simp [dec_init_index, empty_index])
    (by
      intro i q hget
      rw [empty_index, getD_replicate_none] at hget
      cases hget)
  by_cases hr : 0 < st.run
  · have hchunks : encChunks (ps.take k) enc_init
        = some (bs ++ [191 + st.run], rs ++ [st.run], st) := by
      unfold encChunks enc_init
      simp only [Hsteps]
      rw [if_pos hr, push_run_eq hr (by omega)]
    refine ⟨_, _, st, hchunks, ?_⟩
    have hp := Hparse [191 + st.run]
    rw [parse_go_run alpha [] idD2 st.prev hr Hrun, parse_nil] at hp
    simp only [Option.map_some'] at hp
    unfold parse_chunks
    rw [hp]
    refine ⟨_, rfl, rfl, ?_⟩
    have he : effSet idD2 st.run st.prev
        = idD2.set (calculate_index st.prev) (some st.prev) := by
      simp only [effSet]
      rw [if_neg (by omega)]
    rw [← he]
    exact Hinv2
  · have hchunks : encChunks (ps.take k) enc_init = some (bs, rs, st) := by
      unfold encChunks enc_init
      simp only [Hsteps]
      rw [if_neg hr]
    refine ⟨_, _, st, hchunks, ?_⟩
    have hp := Hparse []
    rw [parse_nil] at hp
    simp only [Option.map_some', List.append_nil] at hp
    unfold parse_chunks
    rw [hp]
    refine ⟨_, rfl, rfl, ?_⟩
    have he : effSet idD2 st.run st.prev = idD2 := by
      simp only [effSet]
      rw [if_pos (by omega)]
    rw [← he]
    exact Hinv2

/-- Witness for C3 (amended) at the one-pixel sequence `(1,0,0,255)`. -/
theorem c3_state_mirror_witness :
    ∃ chunks rs st,
      encChunks (([⟨1, 0, 0, 255⟩] : List Pixel).take 1) enc_init = some (chunks, rs, st)
      ∧ ∃ d, parse_chunks chunks false = some d
        ∧ d.prev = st.prev ∧ InvIdx st.index d.index :=
  c3_state_mirror false [⟨1, 0, 0, 255⟩]
    (by
      intro p hp
      simp at hp
      subst hp
      simp [PValid])
    1

set_option maxRecDepth 8000
/-- Counterexample to C3 as stated: encoding the single RGB pixel `(1,0,0)`
emits the DIFF byte `122`; after this one pixel the encoder's and decoder's
`previous_pixel` registers agree, but the index states differ at slot 53,
which the decoder pre-seeded with `(0,0,0,255)` and the encoder never
filled. -/
theorem c3_state_mirror_counterexample :
    add_chunks [1, 0, 0] false = some [122]
    ∧ (encChunks (groupPixels false [1, 0, 0]) enc_init).map
        (fun x => (x.2.2.prev, List.getD x.2.2.index 53 none))
      = some (⟨1, 0, 0, 255⟩, none)
    ∧ (parse_chunks [122] false).map (fun d => (d.prev, List.getD d.index 53 none))
      = some (⟨1, 0, 0, 255⟩, some ⟨0, 0, 0, 255⟩) := by
  refine ⟨by decide, by decide, ?_⟩
  have h122 : (122 : Nat) = 64 + (3 * 16 + 2 * 4 + 2) := by norm_num
  have hd := @parse_go_diff false 3 2 2 [] dec_init_index init_pixel
    (by omega) (by omega) (by omega)
  rw [parse_nil] at hd
  simp only [Option.map_some'] at hd
  unfold parse_chunks
  rw [h122, hd]
  decide

end Jaqoi

namespace Jaqoi

theorem pixelBytes_length (alpha : Bool) (p : Pixel) :
    (pixelBytes alpha p).length = if alpha then 4 else 3 := by
  cases alpha <;> simp [pixelBytes]

theorem pixBytes_length (alpha : Bool) (l : List Pixel) :
    (pixBytes alpha l).length = (if alpha then 4 else 3) * l.length := by
  induction l with
  | nil => simp [pixBytes]
  | cons p ps ih =>
    simp only [pixBytes, List.length_append, pixelBytes_length, ih, List.length_cons]
    cases alpha <;> simp <;> omega

theorem write_op_len {alpha : Bool} {op : Operation} {tag : Nat}
    {rest : List Nat} {index : Index} {prev : Pixel}
    {pu : List Nat} {p : Pixel} {c : Nat} {rest2 : List Nat}
    (h : write_op alpha op tag rest index prev = some (pu, p, c, rest2)) :
    pu.length = (if alpha then 4 else 3) * c := by
  cases op <;>
    simp only [write_op, write_op_rgb, write_op_rgba, write_op_index, write_op_diff,
      write_op_luma, write_op_run] at h <;>
    (try split at h) <;>
    simp_all [pixelBytes_length, pixBytes_length] <;>
    obtain ⟨h1, h2, h3, h4⟩ := h <;>
    rw [← h1, ← h3] <;>
    simp [pixelBytes_length, pixBytes_length, List.length_replicate]

theorem parse_go_len (alpha : Bool) : ∀ (N : Nat) (l : List Nat) (idx : Index) (prev : Pixel)
    (d : DecOut), l.length ≤ N → parse_chunks_go alpha l idx prev = some d →
    d.out.length = (if alpha then 4 else 3) * d.count := by
  intro N
  induction N with
  | zero =>
    intro l idx prev d hl h
    have hnil : l = [] := List.eq_nil_of_length_eq_zero (by omega)
    subst hnil
    rw [parse_nil] at h
    cases h
    simp
  | succ n ih =>
    intro l idx prev d hl h
    cases l with
    | nil =>
      rw [parse_nil] at h
      cases h
      simp
    | cons tag rest =>
      cases hpo : parse_operation tag with
      | none =>
        simp only [parse_chunks_go, hpo] at h
        exact Option.noConfusion h
      | some op =>
        simp only [parse_chunks_go, hpo] at h
        split at h
        · exact Option.noConfusion h
        · rename_i pushed current cnt r2 heq
          cases hrec : parse_chunks_go alpha r2
              (idx.set (calculate_index current) (some current)) current with
          | none =>
            rw [hrec] at h
            exact Option.noConfusion h
          | some d2 =>
            rw [hrec] at h
            simp only [Option.map_some', Option.some.injEq] at h
            subst h
            have hlen2 : r2.length ≤ n := by
              have h1 := write_op_rest_le heq
              simp only [List.length_cons] at hl
              omega
            have h2 := ih r2 _ _ d2 hlen2 hrec
            have h3 := write_op_len heq
            simp only [List.length_append, h2, h3]
            cases alpha <;> simp <;> omega

/-- C8 (amended): whenever `decode` succeeds, the returned sample-byte vector
holds exactly `width·height mod 2^32` pixels (each 3 or 4 bytes by the header
channels), and when that pixel count is positive the chunk-reconstructed
count is checked against it. -/
theorem c8_pixel_count (bytes : List Nat) (md : ImgMetadata) (out : List Nat)
    (h : decode bytes = some (md, out)) :
    out.length
      = (if (match md.channels with | Channels.rgb => false | Channels.rgba => true)
          then 4 else 3) * (md.width * md.height % 2 ^ 32) := by
  simp only [decode] at h
  split at h
  case isFalse => exact Option.noConfusion h
  case isTrue hve =>
    cases hpm : parse_metadata (bytes.take (bytes.length - 8)) with
    | none =>
      rw [hpm] at h
      exact Option.noConfusion h
    | some pr =>
      obtain ⟨md2, rest⟩ := pr
      simp only [hpm] at h
      by_cases hpos : 0 < md2.width * md2.height % 2 ^ 32
      · rw [if_pos hpos] at h
        cases hpc : parse_chunks rest
            (match md2.channels with | Channels.rgb => false | Channels.rgba => true) with
        | none =>
          rw [hpc] at h
          exact Option.noConfusion h
        | some d =>
          rw [hpc] at h
          have hfe : (if md2.width * md2.height % 2 ^ 32 = d.count
              then some (md2, d.out) else none) = some (md, out) := h
          by_cases heq : md2.width * md2.height % 2 ^ 32 = d.count
          · rw [if_pos heq] at hfe
            simp only [Option.some.injEq, Prod.mk.injEq] at hfe
            obtain ⟨h1, h2⟩ := hfe
            subst h1
            subst h2
            rw [heq]
            exact parse_go_len _ rest.length rest _ _ d (by omega) hpc
          · rw [if_neg heq] at hfe
            exact Option.noConfusion hfe
      · rw [if_neg hpos] at h
        simp only [Option.some.injEq, Prod.mk.injEq] at h
        obtain ⟨h1, h2⟩ := h
        subst h1
        subst h2
        have h0 : md2.width * md2.height % 2 ^ 32 = 0 := by omega
        rw [h0, Nat.mul_zero]
        simp

/-- Witness for C8 (amended) at a well-formed empty (0-by-0) image. -/
theorem c8_pixel_count_witness :
    decode [113, 111, 105, 102, 0, 0, 0, 0, 0, 0, 0, 0, 3, 0, 0, 0, 0, 0, 0, 0, 0, 1]
      = some (⟨0, 0, Channels.rgb, Colorspace.srgbLinearAlpha⟩, [])
    ∧ ([] : List Nat).length
      = (if (match Channels.rgb with | Channels.rgb => false | Channels.rgba => true)
          then 4 else 3) * (0 * 0 % 2 ^ 32) :=
  ⟨by decide,
    c8_pixel_count [113, 111, 105, 102, 0, 0, 0, 0, 0, 0, 0, 0, 3, 0, 0, 0, 0, 0, 0, 0, 0, 1]
      ⟨0, 0, Channels.rgb, Colorspace.srgbLinearAlpha⟩ [] (by decide)⟩

/-- Counterexample to C8 as stated: a well-framed stream whose header says
`0 × 0` but whose chunk section holds an RGB chunk reconstructing one pixel.
One differs from `width·height = 0`, yet `decode` does not report an error —
the pixel-count check is skipped entirely when `width·height = 0`. -/
theorem c8_pixel_count_counterexample :
    decode ([113, 111, 105, 102, 0, 0, 0, 0, 0, 0, 0, 0, 3, 0]
        ++ [254, 50, 50, 50] ++ [0, 0, 0, 0, 0, 0, 0, 1])
      = some (⟨0, 0, Channels.rgb, Colorspace.srgbLinearAlpha⟩, [])
    ∧ (parse_chunks [254, 50, 50, 50] false).map (fun d => d.count) = some 1
    ∧ (1 : Nat) ≠ 0 * 0 := by
  refine ⟨by decide, ?_, by decide⟩
  have hd := parse_go_rgb false 50 50 50 [] dec_init_index init_pixel
  rw [parse_nil] at hd
  simp only [Option.map_some'] at hd
  unfold parse_chunks
  rw [hd]
  decide

end Jaqoi

namespace Jaqoi

/-- Spec-side transcription of the spec's header-validity words: the magic is
the ASCII bytes of `qoif`, the channels byte is 3 or 4, and the colorspace
byte is 0 or 1. -/
def HeaderWellFormed (xs : List Nat) : Prop :=
  ∃ w1 w2 w3 w4 g1 g2 g3 g4 c s rest,
    xs = 113 :: 111 :: 105 :: 102 :: w1 :: w2 :: w3 :: w4
      :: g1 :: g2 :: g3 :: g4 :: c :: s :: rest
    ∧ (c = 3 ∨ c = 4) ∧ (s = 0 ∨ s = 1)

theorem parse_channels_eq (c : Nat) :
    (match c with
      | 3 => some Channels.rgb
      | 4 => some Channels.rgba
      | _ => none)
      = if c = 3 then some Channels.rgb else if c = 4 then some Channels.rgba else none := by
  rcases c with _ | _ | _ | _ | _ | n
  · rfl
  · rfl
  · rfl
  · rfl
  · rfl
  · rw [if_neg (by omega), if_neg (by omega)]
    split
    · omega
    · omega
    · rfl

theorem parse_colorspace_eq (s : Nat) :
    (match s with
      | 0 => some Colorspace.srgbLinearAlpha
      | 1 => some Colorspace.allLinearAlpha
      | _ => none)
      = if s = 0 then some Colorspace.srgbLinearAlpha
        else if s = 1 then some Colorspace.allLinearAlpha else none := by
  rcases s with _ | _ | n
  · rfl
  · rfl
  · rw [if_neg (by omega), if_neg (by omega)]
    split
    · omega
    · omega
    · rfl

theorem parse_metadata_isSome (xs : List Nat) :
    (parse_metadata xs).isSome = true ↔ HeaderWellFormed xs := by
  rcases xs with _ | ⟨b0, _ | ⟨b1, _ | ⟨b2, _ | ⟨b3, _ | ⟨w1, _ | ⟨w2, _ | ⟨w3, _ | ⟨w4,
    _ | ⟨g1, _ | ⟨g2, _ | ⟨g3, _ | ⟨g4, _ | ⟨c, _ | ⟨s, rest⟩⟩⟩⟩⟩⟩⟩⟩⟩⟩⟩⟩⟩⟩
  all_goals try (simp [parse_metadata.eq_def, HeaderWellFormed]; done)
  simp only [parse_metadata, parse_channels_eq, parse_colorspace_eq, HeaderWellFormed,
    List.cons.injEq]
  constructor
  · intro h
    by_cases hm : b0 = 113 ∧ b1 = 111 ∧ b2 = 105 ∧ b3 = 102
    · obtain ⟨hb0, hb1, hb2, hb3⟩ := hm
      subst hb0
      subst hb1
      subst hb2
      subst hb3
      rw [if_pos ⟨rfl, rfl, rfl, rfl⟩] at h
      by_cases hc3 : c = 3
      · subst hc3
        by_cases hs0 : s = 0
        · subst hs0
          exact ⟨w1, w2, w3, w4, g1, g2, g3, g4, 3, 0, rest,
            by simp, Or.inl rfl, Or.inl rfl⟩
        by_cases hs1 : s = 1
        · subst hs1
          exact ⟨w1, w2, w3, w4, g1, g2, g3, g4, 3, 1, rest,
            by simp, Or.inl rfl, Or.inr rfl⟩
        · simp [if_neg hs0, if_neg hs1] at h
      by_cases hc4 : c = 4
      · subst hc4
        by_cases hs0 : s = 0
        · subst hs0
          exact ⟨w1, w2, w3, w4, g1, g2, g3, g4, 4, 0, rest,
            by simp, Or.inr rfl, Or.inl rfl⟩
        by_cases hs1 : s = 1
        · subst hs1
          exact ⟨w1, w2, w3, w4, g1, g2, g3, g4, 4, 1, rest,
            by simp, Or.inr rfl, Or.inr rfl⟩
        · simp [if_neg hs0, if_neg hs1] at h
      · simp [if_neg hc3, if_neg hc4] at h
    · simp [if_neg hm] at h
  · rintro ⟨w1', w2', w3', w4', g1', g2', g3', g4', c', s', rest', hxs, hc, hs⟩
    obtain ⟨hb0, hb1, hb2, hb3, hw1, hw2, hw3, hw4, hg1, hg2, hg3, hg4, hcc, hss, hrr⟩ := hxs
    subst hb0; subst hb1; subst hb2; subst hb3
    subst hw1; subst hw2; subst hw3; subst hw4
    subst hg1; subst hg2; subst hg3; subst hg4
    subst hcc; subst hss; subst hrr
    rw [if_pos ⟨rfl, rfl, rfl, rfl⟩]
    rcases hc with rfl | rfl <;> rcases hs with rfl | rfl <;> simp

/-- C9: the framing and header checks of `decode`.  `verify_ending` accepts
exactly the byte vectors of length at least 8 whose last eight bytes are the
literal end marker, and a failure makes `decode` return the error; the header
parser accepts exactly the headers with magic `qoif`, channels 3 or 4 and
colorspace 0 or 1, and its failure also makes `decode` return the error. -/
theorem c9_malformed (bytes : List Nat) :
    (verify_ending bytes = true
        ↔ 8 ≤ bytes.length ∧ bytes.drop (bytes.length - 8) = [0, 0, 0, 0, 0, 0, 0, 1])
    ∧ (verify_ending bytes = false → decode bytes = none)
    ∧ ((parse_metadata (bytes.take (bytes.length - 8))).isSome = true
        ↔ HeaderWellFormed (bytes.take (bytes.length - 8)))
    ∧ (parse_metadata (bytes.take (bytes.length - 8)) = none → decode bytes = none) := by
  refine ⟨⟨?_, ?_⟩, ?_, parse_metadata_isSome _, ?_⟩
  · intro h
    have h8 : 8 ≤ bytes.length := by
      have h2 := h
      simp only [verify_ending, Bool.and_eq_true, decide_eq_true_eq] at h2
      exact h2.1.1
    refine ⟨h8, ?_⟩
    have hd8 : (bytes.drop (bytes.length - 8)).length = 8 := by
      rw [List.length_drop]
      omega
    exact (verify_ending_concat (bytes.take (bytes.length - 8)) _ hd8).mp
      (by rw [List.take_append_drop]; exact h)
  · rintro ⟨h8, hdrop⟩
    have hd8 : (bytes.drop (bytes.length - 8)).length = 8 := by
      rw [List.length_drop]
      omega
    have h2 := (verify_ending_concat (bytes.take (bytes.length - 8)) _ hd8).mpr hdrop
    rw [List.take_append_drop] at h2
    exact h2
  · intro h
    simp [decode, h]
  · intro h
    simp [decode, h]

/-- Witness for C9 at the one-byte input `[5]`, which is too short to end in
the marker. -/
theorem c9_malformed_witness : decode [5] = none :=
  (c9_malformed [5]).2.1 (by decide)

end Jaqoi
